import Mathlib

/-!
Verification development for the dynamic-form repository
(src/src/DynamicForm.tsx).

The TypeScript source is shallowly embedded below:

* `JSVal` models the runtime values the component manipulates
  (the `DynamicValue` union plus `null` and `undefined`, which flow
  through the untyped update helper).  JavaScript numbers are modelled
  exactly as a decimal mantissa/exponent pair `m * 10 ^ e`; IEEE-754
  rounding, `NaN`, `Infinity` and `-0` are outside the model (see the
  comments at each definition that touches numbers).
* `updateNested` embeds the `updateNested` closure of `handleFormChange`
  with value semantics.  A separate heap model (`updateNestedH`) embeds
  the same code with explicit reference semantics in order to state the
  no-in-place-mutation guarantee.
* `renderForm` embeds the `RenderForm` component as a pure function from
  a value and a path to a presentation tree.
* `parseJSONText` / `stringifyJSON` model the platform's `JSON.parse` and
  `JSON.stringify(v, null, 2)` on the modelled value type.

JavaScript object semantics modelled here use plain string-keyed
association lists in insertion order; prototype machinery (for example
the exotic behaviour of the `__proto__` key) and the engine's
integer-like-key reordering are outside the model, as are string values
containing lone UTF-16 surrogates.
-/

set_option maxRecDepth 4000

namespace DynamicForm

/-- Decimal digit character for `n < 10` (`48` is the code of `0`). -/
def digitChar (n : Nat) : Char := Char.ofNat (48 + n)

/-- Numeric value of a decimal digit character. -/
def digitVal (c : Char) : Nat := c.toNat - 48

/-- Fuel-indexed worker for decimal printing; the fuel only makes the
recursion structural (so concrete instances reduce inside the kernel)
and `n + 1` units always suffice. -/
def natToDigitsAux : Nat → Nat → List Char → List Char
  | 0, _, acc => acc
  | fuel + 1, n, acc =>
    if n < 10 then digitChar n :: acc
    else natToDigitsAux fuel (n / 10) (digitChar (n % 10) :: acc)

/-- Decimal digits of a natural number, most significant first
(the usual base-10 printing used for array indices and JSON numbers). -/
def natToDigits (n : Nat) : List Char := natToDigitsAux (n + 1) n []

/-- Decimal printing of a natural number. -/
def natToString (n : Nat) : String := String.mk (natToDigits n)

/-- Decimal printing of an integer (JavaScript `ToString` on an
integral number; there is no negative zero in the model). -/
def intToString (i : Int) : String :=
  if i < 0 then String.mk ('-' :: natToDigits i.natAbs) else natToString i.natAbs

/-- Value of a digit string read in base 10. -/
def digitsToNat (ds : List Char) : Nat :=
  ds.foldl (fun a c => 10 * a + digitVal c) 0

/-- The four whitespace characters skipped by `JSON.parse` and by the
JavaScript numeric conversions used in the source. -/
def isJsWhitespace (c : Char) : Bool :=
  c = ' ' ∨ c = '\t' ∨ c = '\n' ∨ c = '\r'

/-- JavaScript `parseInt(s)` (radix 10): skip leading whitespace, read an
optional sign and then the longest prefix of decimal digits; `none`
stands for `NaN`.  The hexadecimal `0x` prefix of `parseInt` is not
modelled (no claim exercises it). -/
def parseIntJS (s : List Char) : Option Int :=
  let t := s.dropWhile isJsWhitespace
  let signRest : Int × List Char :=
    match t with
    | [] => (1, [])
    | c :: r => if c = '-' then (-1, r) else if c = '+' then (1, r) else (1, c :: r)
  let ds := signRest.2.takeWhile Char.isDigit
  if ds.isEmpty then none else some (signRest.1 * (digitsToNat ds : Int))

/-- Fuel-indexed worker normalising a decimal mantissa/exponent pair by
stripping trailing zeros of the mantissa (`natAbs m + 1` units of fuel
always suffice). -/
def canonNumAux : Nat → Int → Int → Int × Int
  | 0, m, e => (m, e)
  | fuel + 1, m, e =>
    if m = 0 then (0, 0)
    else if m % 10 = 0 then canonNumAux fuel (m / 10) (e + 1) else (m, e)

/-- Normalises a decimal mantissa/exponent pair by stripping trailing
zeros of the mantissa, so that equal numeric values have equal
representations (`0` is represented as `(0, 0)`). -/
def canonNum (m : Int) (e : Int) : Int × Int := canonNumAux (m.natAbs + 1) m e

/-- JavaScript `parseFloat(s)`: skip leading whitespace, read an optional
sign, then the longest prefix shaped `digits [. digits] [e/E [sign] digits]`
(at least one digit before or after the dot); `none` stands for `NaN`.
The `Infinity` literal is not modelled.  The result is the exact decimal
value as a canonical mantissa/exponent pair (IEEE-754 rounding is not
modelled). -/
def parseFloatJS (s : List Char) : Option (Int × Int) :=
  let t := s.dropWhile isJsWhitespace
  let signRest : Int × List Char :=
    match t with
    | [] => (1, [])
    | c :: r => if c = '-' then (-1, r) else if c = '+' then (1, r) else (1, c :: r)
  let r := signRest.2
  let intD := r.takeWhile Char.isDigit
  let r2 := r.drop intD.length
  let fracPart : List Char × List Char :=
    match r2 with
    | [] => ([], [])
    | c :: rr =>
      if c = '.' then (rr.takeWhile Char.isDigit, rr.drop (rr.takeWhile Char.isDigit).length)
      else ([], c :: rr)
  let fracD := fracPart.1
  if intD.isEmpty ∧ fracD.isEmpty then none
  else
    let mantissa : Int := signRest.1 * (digitsToNat (intD ++ fracD) : Int)
    let expPart : Int :=
      match fracPart.2 with
      | [] => 0
      | c :: rr =>
        if c = 'e' ∨ c = 'E' then
          let signDigits : Int × List Char :=
            match rr with
            | [] => (1, [])
            | c2 :: dd =>
              if c2 = '-' then (-1, dd) else if c2 = '+' then (1, dd) else (1, c2 :: dd)
          if (signDigits.2.takeWhile Char.isDigit).isEmpty then 0
          else signDigits.1 * (digitsToNat (signDigits.2.takeWhile Char.isDigit) : Int)
        else 0
    some (canonNum mantissa (-(fracD.length : Int) + expPart))

/-- Runtime values of the component: the `DynamicValue` union of the
source (string, number, boolean, array, object) together with `null`
and `undefined`, which arise inside the untyped update helper.  A
number is the exact decimal `m * 10 ^ e`.  Arrays carry, besides their
elements, the non-index own properties a JavaScript array object can
acquire through writes at non-canonical keys. -/
inductive JSVal where
  | str (s : String)
  | num (m : Int) (e : Int)
  | bool (b : Bool)
  | null
  | undef
  | arr (elems : List JSVal) (props : List (String × JSVal))
  | obj (fields : List (String × JSVal))


/-- Whether a value is the JavaScript `undefined`. -/
def jsIsUndef : JSVal → Bool
  | .undef => true
  | _ => false

/-- The JavaScript test `v === null`. -/
def isNullV : JSVal → Bool
  | .null => true
  | _ => false

/-- JavaScript `typeof v === "object"` (true for arrays, plain objects
and `null`). -/
def typeofObject : JSVal → Bool
  | .arr _ _ => true
  | .obj _ => true
  | .null => true
  | _ => false

/-- JavaScript `Array.isArray`. -/
def isArrayV : JSVal → Bool
  | .arr _ _ => true
  | _ => false

/-- Whether a value is a bare scalar in the sense of the data model
(string, number or boolean). -/
def isScalar : JSVal → Bool
  | .str _ => true
  | .num _ _ => true
  | .bool _ => true
  | _ => false

/-- First binding of a key in an association list (JavaScript own-property
lookup on the modelled objects, whose keys are unique). -/
def lookupField : List (String × JSVal) → String → Option JSVal
  | [], _ => none
  | (k, v) :: rest, key => if k = key then some v else lookupField rest key

/-- Sets a key in an association list, keeping the position of an existing
binding (JavaScript property assignment on a plain object). -/
def setField : List (String × JSVal) → String → JSVal → List (String × JSVal)
  | [], k, v => [(k, v)]
  | (k1, v1) :: rest, k, v =>
    if k1 = k then (k1, v) :: rest else (k1, v1) :: setField rest k v

/-- Interprets a string as a canonical array index: a non-empty digit
string without a leading zero (except `0` itself).  The 2^32-1 upper
bound of JavaScript array indices is not modelled. -/
def canonIndex (k : String) : Option Nat :=
  match k.toList with
  | [] => none
  | c :: rest =>
    if (c :: rest).all Char.isDigit ∧ (c = '0' → rest = []) then
      some (digitsToNat (c :: rest))
    else none

/-- Property key produced by a JavaScript numeric index expression
(`ToString` of the `parseInt` result; `none`, standing for `NaN`,
prints as the key `NaN`). -/
def numToKey : Option Int → String
  | none => "NaN"
  | some n => intToString n

/-- JavaScript property read `receiver[key]`.  Reading from `null` or
`undefined` throws a `TypeError`; this is the only failure the embedding
propagates.  Scalar receivers box silently (string receivers expose their
characters at index keys; the `length` property is not modelled and is
never read by the embedded code). -/
def jsGet : JSVal → String → Except String JSVal
  | .null, k => .error ("TypeError: Cannot read properties of null (reading " ++ k ++ ")")
  | .undef, k => .error ("TypeError: Cannot read properties of undefined (reading " ++ k ++ ")")
  | .obj fields, k => .ok ((lookupField fields k).getD .undef)
  | .arr elems props, k =>
    .ok (match canonIndex k with
      | some n => elems.getD n .undef
      | none => (lookupField props k).getD .undef)
  | .str s, k =>
    .ok (match canonIndex k with
      | some n =>
        match (s.toList.drop n).head? with
        | some c => .str (String.mk [c])
        | none => .undef
      | none => .undef)
  | _, _ => .ok (.undef)

/-- JavaScript property assignment `receiver[key] = v` on the modelled
values.  Assignment into an array at an index past the end pads the
gap with `undefined` (array spread later enumerates such holes as
`undefined`, which is how the rest of this program observes them);
assignment at a non-index key stores a non-index own property.
Assignment to a scalar receiver is a silent no-op (non-strict mode);
the receiver is never a scalar in the embedded code. -/
def jsSet : JSVal → String → JSVal → JSVal
  | .obj fields, k, v => .obj (setField fields k v)
  | .arr elems props, k, v =>
    (match canonIndex k with
      | some n =>
        if n < elems.length then .arr (elems.set n v) props
        else .arr (elems ++ List.replicate (n - elems.length) .undef ++ [v]) props
      | none => .arr elems (setField props k v))
  | x, _, _ => x

/-- Fields of the object produced by a JavaScript object spread
`( ...v )`: a plain object copies its fields, an array contributes its
elements under their index keys followed by its other own properties, a
string contributes its characters under index keys, and every other
value contributes nothing. -/
def spreadFields : JSVal → List (String × JSVal)
  | .obj fields => fields
  | .arr elems props =>
    (elems.enum.map (fun p => (natToString p.1, p.2))) ++ props
  | .str s => (s.toList.enum.map (fun p => (natToString p.1, JSVal.str (String.mk [p.2]))))
  | _ => []

/-- The object produced by a JavaScript object spread `( ...v )`. -/
def objectSpread (v : JSVal) : JSVal := .obj (spreadFields v)

/-- JavaScript array spread `[...v]` for an array receiver: a fresh array
with the same elements and no extra properties.  The embedded code only
spreads values that satisfy `Array.isArray`. -/
def arrayCopy : JSVal → JSVal
  | .arr elems _ => .arr elems []
  | v => v

/-- Splits a path on `.` and `[` exactly as `p.split(/\.|\[/)` does;
the result is always non-empty. -/
def splitTokensAux : List Char → List Char → List (List Char)
  | [], acc => [acc.reverse]
  | c :: rest, acc =>
    if c = '.' ∨ c = '[' then acc.reverse :: splitTokensAux rest []
    else splitTokensAux rest (c :: acc)

/-- Token list of a path string (`p.split(/\.|\[/)` in the source). -/
def splitTokens (p : String) : List (List Char) :=
  splitTokensAux p.toList []

/-- Removes the first `]`, exactly as `key.replace("]", "")` does. -/
def stripFirstRBracket : List Char → List Char
  | [] => []
  | c :: rest => if c = ']' then rest else c :: stripFirstRBracket rest

/-- One iteration of the `for` loop of `updateNested`
(src/src/DynamicForm.tsx lines 158-169): the current container is
shallow-copied, the child named by the token is replaced inside the copy
by an object spread of itself, and the walk descends into that child
copy.  The copy of the enclosing level is discarded by the source, which
is reproduced faithfully here. -/
def loopStep (current : JSVal) (tok : List Char) : Except String JSVal := do
  let keyChars := stripFirstRBracket tok
  let key := String.mk keyChars
  if isArrayV current then
    -- current = [...current]
    let copy := arrayCopy current
    -- parseInt(key), used as the property key of the index expression
    let idxKey := numToKey (parseIntJS keyChars)
    -- current[parseInt(key)] = { ...current[parseInt(key)] }
    let child ← jsGet copy idxKey
    let copy2 := jsSet copy idxKey (objectSpread child)
    -- current = current[parseInt(key)]
    jsGet copy2 idxKey
  else
    -- current = { ...current }
    let copy := objectSpread current
    -- current[key] = { ...current[key] }
    let child ← jsGet copy key
    let copy2 := jsSet copy key (objectSpread child)
    -- current = current[key]
    jsGet copy2 key

/-- The `updateNested` closure of `handleFormChange`
(src/src/DynamicForm.tsx lines 150-180), with value semantics.  The
`Except` layer records the only way the original can throw: a property
read on `null`/`undefined` (proved unreachable below). -/
def updateNested (obj : JSVal) (p : String) (val : JSVal) : Except String JSVal :=
  -- if (typeof obj !== "object" || obj === null) return val
  if typeofObject obj = false ∨ isNullV obj = true then .ok val
  else do
    let paths := splitTokens p
    -- for (let i = 0; i < paths.length - 1; i++) ...
    let current ← paths.dropLast.foldlM loopStep obj
    let lastKeyChars := stripFirstRBracket (paths.getLastD [])
    let lastKey := String.mk lastKeyChars
    if isArrayV current then
      -- const arr = [...current]; arr[parseInt(lastKey)] = val; return arr
      let arrC := arrayCopy current
      .ok (jsSet arrC (numToKey (parseIntJS lastKeyChars)) val)
    else
      -- const objCopy = { ...current }; objCopy[lastKey] = val; return objCopy
      let objCopy := objectSpread current
      .ok (jsSet objCopy lastKey val)

/-- Result value of `updateNested` (the embedded function never reaches
the error case; see the no-exception theorem for claim C6). -/
def updateNestedVal (obj : JSVal) (p : String) (val : JSVal) : JSVal :=
  match updateNested obj p val with
  | .ok r => r
  | .error _ => JSVal.undef

/-- Presentation tree produced by the `RenderForm` component.  The three
leaf controls carry the value they display and have an edit callback
wired to their path; `listGroup` and `accordion` are the sequence and
mapping containers; `unsupported` is the placeholder `div` for any other
value, which carries no value and has no edit callback. -/
inductive RTree where
  | textField (path : String) (value : String)
  | numberField (path : String) (m : Int) (e : Int)
  | checkbox (path : String) (value : Bool)
  | listGroup (path : String) (items : List RTree)
  | accordion (path : String) (children : List RTree)
  | unsupported (path : String)

mutual

/-- The `RenderForm` component (src/src/DynamicForm.tsx lines 29-129) as
a pure function from a value and its path to a presentation tree.  The
source dispatches by sequential runtime type tests in the order string,
number, boolean, array, object-and-not-null, fallback; the shapes are
mutually exclusive, so the exhaustive match below realises exactly that
precedence, with `null` and `undefined` reaching the fallback. -/
def renderForm : JSVal → String → RTree
  | .str s, path => .textField path s
  | .num m e, path => .numberField path m e
  | .bool b, path => .checkbox path b
  | .arr elems _, path => .listGroup path (renderItems elems 0 path)
  | .obj fields, path => .accordion path (renderKeys fields path)
  | .null, path => .unsupported path
  | .undef, path => .unsupported path

/-- Children of a sequence node: element at offset `i` renders at path
`path[i]` (the `value.map((item, index) => ...)` loop). -/
def renderItems : List JSVal → Nat → String → List RTree
  | [], _, _ => []
  | v :: rest, i, path =>
    renderForm v (path ++ "[" ++ natToString i ++ "]") :: renderItems rest (i + 1) path

/-- Children of a mapping node: the binding of `key` renders at path
`path.key` (the `keys.map((key) => ...)` loop, in key insertion order). -/
def renderKeys : List (String × JSVal) → String → List RTree
  | [], _ => []
  | (k, v) :: rest, path =>
    renderForm v (path ++ "." ++ k) :: renderKeys rest path

end

/-- The top-level render of `JsonFormGenerator` (line 231-235): when a
form is shown, the whole tree renders starting from the path token
`root`. -/
def topRender (v : JSVal) : RTree := renderForm v "root"

mutual

/-- All paths at which the renderer places a leaf control or placeholder
or labels a container (used to express that a path is
renderer-produced). -/
def rtreePaths : RTree → List String
  | .textField p _ => [p]
  | .numberField p _ _ => [p]
  | .checkbox p _ => [p]
  | .listGroup p items => p :: rtreePathsList items
  | .accordion p children => p :: rtreePathsList children
  | .unsupported p => [p]

/-- Paths of a list of presentation trees. -/
def rtreePathsList : List RTree → List String
  | [] => []
  | t :: rest => rtreePaths t ++ rtreePathsList rest

end

/-- The edit callback value of the numeric text field (line 62):
`parseFloat(e.target.value) || 0`.  A failed parse (`NaN`) is falsy, so
the logical-or substitutes `0`; a successful parse of `0` is falsy too
and the substitution also yields `0`, the same value. -/
def numericEdit (s : String) : JSVal :=
  match parseFloatJS s.toList with
  | none => JSVal.num 0 0
  | some me => if me.1 = 0 then JSVal.num 0 0 else JSVal.num me.1 me.2

/-- The opening curly brace character. -/
def lbrace : Char := Char.ofNat 123

/-- The closing curly brace character. -/
def rbrace : Char := Char.ofNat 125

/-- A run of `n` space characters (the two-space indentation steps of
`JSON.stringify(v, null, 2)`). -/
def spaces (n : Nat) : String := String.mk (List.replicate n ' ')

/-- Lower-case hexadecimal digit character for `n < 16`. -/
def hexDigitChar (n : Nat) : Char :=
  if n < 10 then Char.ofNat (48 + n) else Char.ofNat (87 + n)

/-- JSON escape of one character, as produced by `JSON.stringify`:
quote and backslash are backslash-escaped, the five named control
characters use their short escapes, any other control character uses a
`u00XX` escape, and everything else is emitted verbatim. -/
def escapeChar (c : Char) : List Char :=
  if c = '"' then ['\\', '"']
  else if c = '\\' then ['\\', '\\']
  else if c = '\x08' then ['\\', 'b']
  else if c = '\t' then ['\\', 't']
  else if c = '\n' then ['\\', 'n']
  else if c = '\x0c' then ['\\', 'f']
  else if c = '\r' then ['\\', 'r']
  else if c.toNat < 32 then
    ['\\', 'u', '0', '0', hexDigitChar (c.toNat / 16), hexDigitChar (c.toNat % 16)]
  else [c]

/-- A JSON string literal for `s` (quotes plus escaped body). -/
def quoteString (s : String) : String :=
  String.mk ('"' :: (s.toList.map escapeChar).flatten ++ ['"'])


/-- Positional decimal rendering of the exact number `m * 10 ^ e`.
For finite values `JSON.stringify` prints the same value, switching to
exponent notation only for very large or very small magnitudes — a
formatting difference with no effect on the value read back.  A
non-finite number, which the platform can hold after conversion
overflow and which no exact pair represents, is printed by
`JSON.stringify` as `null`; `stringifyDouble` supplies that case. -/
def numToString (m e : Int) : String :=
  if m = 0 then "0"
  else
    let ds := natToDigits m.natAbs
    let body :=
      if 0 ≤ e then ds ++ List.replicate e.toNat '0'
      else
        let k := (-e).toNat
        if k < ds.length then ds.take (ds.length - k) ++ '.' :: ds.drop (ds.length - k)
        else '0' :: '.' :: (List.replicate (k - ds.length) '0' ++ ds)
    String.mk (if m < 0 then '-' :: body else body)

mutual

/-- `JSON.stringify(v, null, 2)` at indentation level `ind` (the
indentation of the container the value sits in).  `undefined` inside an
array serialises as `null` and an object member bound to `undefined` is
skipped, as `JSON.stringify` does; a top-level `undefined` (for which
`JSON.stringify` returns no string at all) is also rendered `null`, but
the caller never passes it (the output handler is guarded). -/
def stringifyVal : JSVal → Nat → String
  | .str s, _ => quoteString s
  | .num m e, _ => numToString m e
  | .bool b, _ => if b then "true" else "false"
  | .null, _ => "null"
  | .undef, _ => "null"
  | .arr [] _, _ => "[]"
  | .arr (v :: rest) _, ind =>
    "[\n" ++ joinElems (v :: rest) (ind + 2) ++ "\n" ++ spaces ind ++ "]"
  | .obj fields, ind =>
    let kept := fields.filter (fun kv => !(jsIsUndef kv.2))
    if kept.isEmpty then "\x7b\x7d"
    else "\x7b\n" ++ joinFields kept (ind + 2) ++ "\n" ++ spaces ind ++ "\x7d"
termination_by v _ => sizeOf v
decreasing_by
  all_goals
    simp only [JSVal.arr.sizeOf_spec, JSVal.obj.sizeOf_spec, List.cons.sizeOf_spec,
      Prod.mk.sizeOf_spec, List.nil.sizeOf_spec]
  all_goals
    first
    | omega
    | (have hf : ∀ l : List (String × JSVal),
          sizeOf (List.filter (fun kv => !(jsIsUndef kv.2)) l) ≤ sizeOf l := by
         intro l
         induction l with
         | nil => simp
         | cons kv rest ih =>
           rw [List.filter_cons]
           split
           · simp only [List.cons.sizeOf_spec]
             omega
           · simp only [List.cons.sizeOf_spec]
             omega
       have hff := hf fields
       omega)

/-- The comma-and-newline separated items of a non-empty array, each on
its own line at indentation `ind`. -/
def joinElems : List JSVal → Nat → String
  | [], _ => ""
  | [v], ind => spaces ind ++ stringifyVal v ind
  | v :: w :: rest, ind =>
    spaces ind ++ stringifyVal v ind ++ ",\n" ++ joinElems (w :: rest) ind
termination_by l _ => sizeOf l
decreasing_by
  all_goals
    simp only [List.cons.sizeOf_spec, Prod.mk.sizeOf_spec, List.nil.sizeOf_spec]
  all_goals omega

/-- The comma-and-newline separated members of a non-empty object, each
on its own line at indentation `ind` as `"key": value`. -/
def joinFields : List (String × JSVal) → Nat → String
  | [], _ => ""
  | [(k, v)], ind => spaces ind ++ quoteString k ++ ": " ++ stringifyVal v ind
  | (k, v) :: kv :: rest, ind =>
    spaces ind ++ quoteString k ++ ": " ++ stringifyVal v ind ++ ",\n" ++
      joinFields (kv :: rest) ind
termination_by l _ => sizeOf l
decreasing_by
  all_goals
    simp only [List.cons.sizeOf_spec, Prod.mk.sizeOf_spec, List.nil.sizeOf_spec]
  all_goals omega

end

/-- The `JSON.stringify(formData, null, 2)` call of `handleJsonOutput`
(line 191). -/
def stringifyJSON (v : JSVal) : String := stringifyVal v 0

/-- Skips JSON whitespace. -/
def skipWs (s : List Char) : List Char := s.dropWhile isJsWhitespace

/-- Value of one hexadecimal digit character, if it is one. -/
def hexVal? (c : Char) : Option Nat :=
  if c.isDigit then some (c.toNat - 48)
  else if 'a' ≤ c ∧ c ≤ 'f' then some (c.toNat - 87)
  else if 'A' ≤ c ∧ c ≤ 'F' then some (c.toNat - 55)
  else none

/-- Body of a JSON string literal after the opening quote: returns the
decoded characters and the input following the closing quote (the fuel
only makes the recursion structural; one unit per decoded character plus
one always suffices).  Escape handling follows `JSON.parse`; a `uXXXX` escape naming a surrogate must
be part of a surrogate pair (a lone surrogate, which JavaScript would
accept into a UTF-16 string, has no counterpart among Unicode scalar
values and is rejected by the model). -/
def parseStringBody : Nat → List Char → Except String (List Char × List Char)
  | 0, _ => .error "String literal too long for the modelled budget"
  | fuel + 1, s =>
  match s with
  | [] => .error "Unterminated string in JSON"
  | c :: rest =>
    if c = '"' then .ok ([], rest)
    else if c = '\\' then
      match rest with
      | [] => .error "Unterminated string in JSON"
      | e :: rest2 =>
        if e = '"' then
          match parseStringBody fuel rest2 with
          | .error m => .error m
          | .ok p => .ok ('"' :: p.1, p.2)
        else if e = '\\' then
          match parseStringBody fuel rest2 with
          | .error m => .error m
          | .ok p => .ok ('\\' :: p.1, p.2)
        else if e = '/' then
          match parseStringBody fuel rest2 with
          | .error m => .error m
          | .ok p => .ok ('/' :: p.1, p.2)
        else if e = 'b' then
          match parseStringBody fuel rest2 with
          | .error m => .error m
          | .ok p => .ok ('\x08' :: p.1, p.2)
        else if e = 'f' then
          match parseStringBody fuel rest2 with
          | .error m => .error m
          | .ok p => .ok ('\x0c' :: p.1, p.2)
        else if e = 'n' then
          match parseStringBody fuel rest2 with
          | .error m => .error m
          | .ok p => .ok ('\n' :: p.1, p.2)
        else if e = 'r' then
          match parseStringBody fuel rest2 with
          | .error m => .error m
          | .ok p => .ok ('\r' :: p.1, p.2)
        else if e = 't' then
          match parseStringBody fuel rest2 with
          | .error m => .error m
          | .ok p => .ok ('\t' :: p.1, p.2)
        else if e = 'u' then
          match rest2 with
          | h1 :: h2 :: h3 :: h4 :: rest3 =>
            match hexVal? h1, hexVal? h2, hexVal? h3, hexVal? h4 with
            | some a, some b, some c3, some d =>
              let code := ((a * 16 + b) * 16 + c3) * 16 + d
              if code < 0xD800 ∨ 0xDFFF < code then
                match parseStringBody fuel rest3 with
                | .error m => .error m
                | .ok p => .ok (Char.ofNat code :: p.1, p.2)
              else if code ≤ 0xDBFF then
                match rest3 with
                | '\\' :: 'u' :: g1 :: g2 :: g3 :: g4 :: rest4 =>
                  match hexVal? g1, hexVal? g2, hexVal? g3, hexVal? g4 with
                  | some a2, some b2, some c4, some d2 =>
                    let lo := ((a2 * 16 + b2) * 16 + c4) * 16 + d2
                    if 0xDC00 ≤ lo ∧ lo ≤ 0xDFFF then
                      match parseStringBody fuel rest4 with
                      | .error m => .error m
                      | .ok p =>
                        .ok (Char.ofNat (0x10000 + (code - 0xD800) * 0x400 + (lo - 0xDC00)) :: p.1, p.2)
                    else .error "Lone surrogate escape in JSON string (outside the model)"
                  | _, _, _, _ => .error "Bad Unicode escape in JSON"
                | _ => .error "Lone surrogate escape in JSON string (outside the model)"
              else .error "Lone surrogate escape in JSON string (outside the model)"
            | _, _, _, _ => .error "Bad Unicode escape in JSON"
          | _ => .error "Bad Unicode escape in JSON"
        else .error "Bad escaped character in JSON"
    else if c.toNat < 32 then .error "Bad control character in JSON string literal"
    else
      match parseStringBody fuel rest with
      | .error m => .error m
      | .ok p => .ok (c :: p.1, p.2)

/-- A JSON number literal at the head of the input, after the strict
`JSON.parse` grammar (`-? int frac? exp?`, no leading zeros, a dot or an
exponent marker must be followed by digits); the value is returned as a
canonical mantissa/exponent pair together with the rest of the input.
The platform then converts this exact value to a binary64 double; that
conversion is outside the exact model — `overflowsDouble` marks the
literals it saturates to `±Infinity`, a divergence the corrected C9
round-trip claim accounts for. -/
def parseNumberJSON (s : List Char) : Except String ((Int × Int) × List Char) :=
  let sgnR : Int × List Char :=
    match s with
    | [] => (1, [])
    | c :: r => if c = '-' then (-1, r) else (1, c :: r)
  let r := sgnR.2
  let intD := r.takeWhile Char.isDigit
  if intD.isEmpty then .error "Unexpected token in JSON number"
  else if 1 < intD.length ∧ intD.getD 0 ' ' = '0' then .error "Unexpected number in JSON"
  else
    let r2 := r.drop intD.length
    let fracStep : Except String (List Char × List Char) :=
      match r2 with
      | [] => .ok ([], [])
      | c :: rr =>
        if c = '.' then
          if (rr.takeWhile Char.isDigit).isEmpty then
            .error "Unterminated fractional number in JSON"
          else .ok (rr.takeWhile Char.isDigit, rr.drop (rr.takeWhile Char.isDigit).length)
        else .ok ([], c :: rr)
    match fracStep with
    | .error m => .error m
    | .ok (fracD, r3) =>
      let expStep : Except String (Int × List Char) :=
        match r3 with
        | [] => .ok (0, [])
        | c :: rr =>
          if c = 'e' ∨ c = 'E' then
            let sgnE : Int × List Char :=
              match rr with
              | [] => (1, [])
              | c2 :: dd =>
                if c2 = '-' then (-1, dd) else if c2 = '+' then (1, dd) else (1, c2 :: dd)
            if (sgnE.2.takeWhile Char.isDigit).isEmpty then
              .error "Exponent part is missing a number in JSON"
            else .ok (sgnE.1 * (digitsToNat (sgnE.2.takeWhile Char.isDigit) : Int),
              sgnE.2.drop (sgnE.2.takeWhile Char.isDigit).length)
          else .ok (0, c :: rr)
      match expStep with
      | .error m => .error m
      | .ok (ex, r4) =>
        .ok (canonNum (sgnR.1 * (digitsToNat (intD ++ fracD) : Int))
              (-(fracD.length : Int) + ex), r4)

/-- The element loop of a non-empty JSON array, starting at the first
element; `pv` parses one value (it is the value parser at the remaining
nesting budget) and `acc` holds the elements already read.  The loop
fuel only makes the recursion structural; one unit per element, bounded
by the input length, always suffices. -/
def parseElemsWith (pv : List Char → Except String (JSVal × List Char)) :
    Nat → List Char → List JSVal → Except String (JSVal × List Char)
  | 0, _, _ => .error "JSON array too long for the modelled budget"
  | efuel + 1, s, acc =>
    match pv s with
    | .error m => .error m
    | .ok (v, r) =>
      match skipWs r with
      | ',' :: r2 => parseElemsWith pv efuel r2 (acc ++ [v])
      | c :: r2 =>
        if c = ']' then .ok (.arr (acc ++ [v]) [], r2)
        else .error "Expected comma or closing bracket in JSON array"
      | [] => .error "Unexpected end of JSON input"

/-- The member loop of a non-empty JSON object, starting at the first
key; `pv` parses one value and `acc` holds the members already read.  A
duplicate key keeps its first position and receives the later value, as
in `JSON.parse`. -/
def parseMembersWith (pv : List Char → Except String (JSVal × List Char)) :
    Nat → List Char → List (String × JSVal) → Except String (JSVal × List Char)
  | 0, _, _ => .error "JSON object too long for the modelled budget"
  | mfuel + 1, s, acc =>
    match skipWs s with
    | c :: rest =>
      if c = '"' then
        match parseStringBody (rest.length + 1) rest with
        | .error m => .error m
        | .ok (kcs, r) =>
          match skipWs r with
          | ':' :: r2 =>
            match pv r2 with
            | .error m => .error m
            | .ok (v, r3) =>
              let acc2 := setField acc (String.mk kcs) v
              match skipWs r3 with
              | ',' :: r4 => parseMembersWith pv mfuel r4 acc2
              | c2 :: r4 =>
                if c2 = rbrace then .ok (.obj acc2, r4)
                else .error "Expected comma or closing brace in JSON object"
              | [] => .error "Unexpected end of JSON input"
          | _ => .error "Expected colon in JSON object"
      else .error "Expected property name in JSON object"
    | [] => .error "Unexpected end of JSON input"

/-- One JSON value at the head of the input, after the `JSON.parse`
grammar.  The fuel argument bounds the container nesting depth; the
top-level entry point supplies fuel larger than any depth an input of
its length can reach. -/
def parseValue : Nat → List Char → Except String (JSVal × List Char)
  | 0, _ => .error "JSON value too deeply nested for the modelled budget"
  | fuel + 1, s =>
    match skipWs s with
    | [] => .error "Unexpected end of JSON input"
    | c :: rest =>
      if c = '"' then
        match parseStringBody (rest.length + 1) rest with
        | .error m => .error m
        | .ok (cs, r) => .ok (.str (String.mk cs), r)
      else if c = lbrace then
        match skipWs rest with
        | c2 :: r2 =>
          if c2 = rbrace then .ok (.obj [], r2)
          else parseMembersWith (parseValue fuel) (rest.length + 1) (skipWs rest) []
        | [] => .error "Unexpected end of JSON input"
      else if c = '[' then
        match skipWs rest with
        | c2 :: r2 =>
          if c2 = ']' then .ok (.arr [] [], r2)
          else parseElemsWith (parseValue fuel) (rest.length + 1) (skipWs rest) []
        | [] => .error "Unexpected end of JSON input"
      else if c = 't' then
        match rest with
        | 'r' :: 'u' :: 'e' :: r => .ok (.bool true, r)
        | _ => .error "Unexpected token in JSON"
      else if c = 'f' then
        match rest with
        | 'a' :: 'l' :: 's' :: 'e' :: r => .ok (.bool false, r)
        | _ => .error "Unexpected token in JSON"
      else if c = 'n' then
        match rest with
        | 'u' :: 'l' :: 'l' :: r => .ok (.null, r)
        | _ => .error "Unexpected token in JSON"
      else if c = '-' ∨ c.isDigit then
        match parseNumberJSON (c :: rest) with
        | .error m => .error m
        | .ok (me, r) => .ok (.num me.1 me.2, r)
      else .error "Unexpected token in JSON"

/-- The platform `JSON.parse` used by `handleParseJson` (line 138):
parse one value and require only trailing whitespace after it.  The
recursion budget supplied here exceeds the container depth any input of
this length can reach. -/
def parseJSONText (s : String) : Except String JSVal :=
  match parseValue (s.length + 1) s.toList with
  | .error m => .error m
  | .ok (v, rest) =>
    if (skipWs rest).isEmpty then .ok v
    else .error "Unexpected non-whitespace character after JSON data"

mutual

/-- Characterises the values `JSON.parse` can produce: no `undefined`,
no extra array properties, canonical numbers, and objects with pairwise
distinct keys. -/
def wfJson : JSVal → Bool
  | .str _ => true
  | .num m e => (decide (m = 0) && decide (e = 0)) || (decide (¬m = 0) && decide (¬m % 10 = 0))
  | .bool _ => true
  | .null => true
  | .undef => false
  | .arr es props => props.isEmpty && wfJsonList es
  | .obj fields => decide ((fields.map Prod.fst).Nodup) && wfJsonFields fields

/-- All elements well-formed. -/
def wfJsonList : List JSVal → Bool
  | [] => true
  | v :: rest => wfJson v && wfJsonList rest

/-- All field values well-formed. -/
def wfJsonFields : List (String × JSVal) → Bool
  | [] => true
  | (_, v) :: rest => wfJson v && wfJsonFields rest

end

mutual

/-- Structural size of a value, counting one per node (used only to
budget the fuel of the parser inside proofs; scalars count one whatever
their content). -/
def jsize : JSVal → Nat
  | .str _ => 1
  | .num _ _ => 1
  | .bool _ => 1
  | .null => 1
  | .undef => 1
  | .arr es props => 1 + jsizeList es + jsizeFields props
  | .obj fields => 1 + jsizeFields fields

/-- Size of a list of values. -/
def jsizeList : List JSVal → Nat
  | [] => 0
  | v :: rest => 1 + jsize v + jsizeList rest

/-- Size of a field list. -/
def jsizeFields : List (String × JSVal) → Nat
  | [] => 0
  | (_, v) :: rest => 1 + jsize v + jsizeFields rest

end

/-- Continuations a printed value can be followed by inside a larger
pretty-printed document: the stream ends, or continues with the comma
separating two items or the newline that precedes a closing bracket.
These are the only three shapes `JSON.stringify(v, null, 2)` produces
after a value, and none of them starts with a character that could
extend a number token (used only to organise the round-trip proof). -/
def restOk : List Char → Prop
  | [] => True
  | c :: _ => c = ',' ∨ c = '\n'

/-- Smallest magnitude at which the platform's binary64 conversion
rounds to infinity: half a unit past the largest finite double, that
is `2 ^ 1024 - 2 ^ 970`.  JavaScript numbers are IEEE-754 doubles and
`JSON.parse` applies this conversion to every numeric literal. -/
def doubleOverflowBound : Nat := 2 ^ 1024 - 2 ^ 970

/-- Whether the exact decimal `m * 10 ^ e` lies outside the finite
double range, so that the platform's number conversion — the one step
of `JSON.parse` that the exact-decimal model leaves out — turns it
into `Infinity` or `-Infinity`. -/
def overflowsDouble (m e : Int) : Bool :=
  if 0 ≤ e then doubleOverflowBound ≤ m.natAbs * 10 ^ e.toNat
  else doubleOverflowBound * 10 ^ (-e).toNat ≤ m.natAbs

mutual

/-- Whether a tree holds a number whose double conversion saturates.
On such trees the exact-decimal model diverges from the platform: the
platform holds `±Infinity` where the model keeps the exact pair. -/
def hasOverflow : JSVal → Bool
  | .num m e => overflowsDouble m e
  | .arr es props => hasOverflowList es || hasOverflowFields props
  | .obj fields => hasOverflowFields fields
  | _ => false

/-- Some element holds an overflowing number. -/
def hasOverflowList : List JSVal → Bool
  | [] => false
  | v :: rest => hasOverflow v || hasOverflowList rest

/-- Some field value holds an overflowing number. -/
def hasOverflowFields : List (String × JSVal) → Bool
  | [] => false
  | (_, v) :: rest => hasOverflow v || hasOverflowFields rest

end

mutual

/-- Replaces every number leaf that the double conversion saturates by
the JSON `null`.  `JSON.stringify` prints a non-finite number exactly
as it prints the literal `null`, so printing the collapsed tree gives
the text the platform prints for the tree it actually holds. -/
def collapseOverflow : JSVal → JSVal
  | .num m e => if overflowsDouble m e then .null else .num m e
  | .arr es props => .arr (collapseOverflowList es) (collapseOverflowFields props)
  | .obj fields => .obj (collapseOverflowFields fields)
  | v => v

/-- Collapses every element. -/
def collapseOverflowList : List JSVal → List JSVal
  | [] => []
  | v :: rest => collapseOverflow v :: collapseOverflowList rest

/-- Collapses every field value. -/
def collapseOverflowFields : List (String × JSVal) → List (String × JSVal)
  | [] => []
  | (k, v) :: rest => (k, collapseOverflow v) :: collapseOverflowFields rest

end

/-- The text the real program prints for a parsed tree: on the
platform, `JSON.parse` has already replaced every overflowing literal
by `±Infinity`, and `JSON.stringify` prints those non-finite numbers
as `null` — so the printed text is the pretty-printing of the tree
with each overflowing number leaf collapsed to `null`. -/
def stringifyDouble (v : JSVal) : String := stringifyJSON (collapseOverflow v)

/-- The three state cells of `JsonFormGenerator`: the raw text area
content, the current Value tree (`null` before a successful parse and
after a failed one), and the last error banner text. -/
structure FormState where
  jsonString : String
  formData : Option JSVal
  error : Option String

/-- JavaScript truthiness of the `formData` cell (the `if (formData)`
and `formData && ...` guards): `null`, `false`, the number `0` and the
empty string are falsy. -/
def truthyData : Option JSVal → Bool
  | none => false
  | some (.bool b) => b
  | some (.num m _) => decide (¬m = 0)
  | some (.str s) => decide (¬s = "")
  | some .null => false
  | some .undef => false
  | some (.arr _ _) => true
  | some (.obj _) => true

/-- The `handleParseJson` callback (lines 136-145): on success the parsed
tree replaces the Form State's Value and the error is cleared; on failure
the error becomes the fixed prefix plus the parser's diagnostic and the
Value is set to `null`. -/
def handleParseJson (st : FormState) : FormState :=
  match parseJSONText st.jsonString with
  | .ok v => { st with formData := some v, error := none }
  | .error m => { st with error := some ("Invalid JSON: " ++ m), formData := none }

/-- The `handleFormChange` callback (lines 147-187): when the current
`formData` is truthy it is replaced by the path-addressed update,
otherwise nothing happens.  Inside the guard the previous data cannot be
`null`; the `getD` default mirrors the `null` the functional updater
would receive in that impossible case. -/
def handleFormChange (st : FormState) (newValue : JSVal) (path : String) : FormState :=
  if truthyData st.formData then
    { st with formData := some (updateNestedVal (st.formData.getD JSVal.null) path newValue) }
  else st

/-- The `handleJsonOutput` callback (lines 189-194): when the current
`formData` is truthy the pretty-printed serialization is emitted (to the
console in the source), otherwise nothing is emitted. -/
def handleJsonOutput (st : FormState) : Option String :=
  if truthyData st.formData then
    some (stringifyJSON (st.formData.getD JSVal.null))
  else none

/-- The `formData && ...` render guard (line 226): whether the generated
form (the `RenderForm` tree rooted at path `root`) is shown at all. -/
def showsForm (st : FormState) : Bool := truthyData st.formData

/-!
Heap model of `updateNested`.

The value model above uses value semantics, which cannot even express
in-place mutation.  To state the claim that `updateNested` never mutates
its argument, the same lines of source are embedded once more against an
explicit heap: nodes live at addresses (indices into a list), property
reads follow addresses, the spreads allocate fresh nodes, and the
assignments overwrite a node at an address.  The theorem for claim C4
shows every overwritten address was allocated during the call itself.
-/

/-- A heap node: a scalar, or a container holding the addresses of its
children (`harr` also keeps non-index properties, as `JSVal.arr` does). -/
inductive HNode where
  | hstr (s : String)
  | hnum (m : Int) (e : Int)
  | hbool (b : Bool)
  | hnull
  | hundef
  | harr (elems : List Nat) (props : List (String × Nat))
  | hobj (fields : List (String × Nat))
  deriving DecidableEq

/-- The heap: the node at address `a` is the list entry at index `a`;
allocation appends. -/
abbrev Heap := List HNode

/-- Reads the node at an address (dangling addresses read as
`undefined`; a closed heap has none). -/
def readNode (h : Heap) (a : Nat) : HNode := h.getD a (.hundef)

/-- Allocates a fresh node, returning the extended heap and the address. -/
def alloc (h : Heap) (n : HNode) : Heap × Nat := (h ++ [n], h.length)

/-- First binding of a key in an address-valued association list. -/
def lookupAddr : List (String × Nat) → String → Option Nat
  | [], _ => none
  | (k, v) :: rest, key => if k = key then some v else lookupAddr rest key

/-- Sets a key in an address-valued association list, keeping the
position of an existing binding. -/
def setAddr : List (String × Nat) → String → Nat → List (String × Nat)
  | [], k, v => [(k, v)]
  | (k1, v1) :: rest, k, v =>
    if k1 = k then (k1, v) :: rest else (k1, v1) :: setAddr rest k v

/-- `typeof (node) === "object"` at the heap level. -/
def hTypeofObject : HNode → Bool
  | .harr _ _ => true
  | .hobj _ => true
  | .hnull => true
  | _ => false

/-- `Array.isArray` at the heap level. -/
def hIsArray : HNode → Bool
  | .harr _ _ => true
  | _ => false

/-- Heap-level property read `receiver[key]`: returns the child address,
or `none` when the property is absent (JavaScript `undefined`; the
callers allocate an `hundef` node for it when they need an address). -/
def hGetProp (n : HNode) (key : String) : Option Nat :=
  match n with
  | .hobj fields => lookupAddr fields key
  | .harr elems props =>
    (match canonIndex key with
      | some i => elems.get? i
      | none => lookupAddr props key)
  | _ => none

/-- Heap-level property assignment on a container node (`undefAddr` is
used to pad an array grown by an out-of-range index write, pointing at
an `hundef` node). -/
def hSetProp (n : HNode) (key : String) (v : Nat) (undefAddr : Nat) : HNode :=
  match n with
  | .hobj fields => .hobj (setAddr fields key v)
  | .harr elems props =>
    (match canonIndex key with
      | some i =>
        if i < elems.length then .harr (elems.set i v) props
        else .harr (elems ++ List.replicate (i - elems.length) undefAddr ++ [v]) props
      | none => .harr elems (setAddr props key v))
  | _ => n

/-- Fields of the object allocated by a heap-level spread `( ...a )`;
spreading a string allocates one node per character, so the heap is
threaded through. -/
def hSpreadFields (h : Heap) (a : Nat) : Heap × List (String × Nat) :=
  match readNode h a with
  | .hobj fields => (h, fields)
  | .harr elems props => (h, (elems.enum.map (fun p => (natToString p.1, p.2))) ++ props)
  | .hstr s =>
    s.toList.enum.foldl
      (fun acc p =>
        let al := alloc acc.1 (.hstr (String.mk [p.2]))
        (al.1, acc.2 ++ [(natToString p.1, al.2)]))
      (h, [])
  | _ => (h, [])

/-- Heap-level object spread: allocates the fresh object. -/
def hObjectSpread (h : Heap) (a : Nat) : Heap × Nat :=
  let hf := hSpreadFields h a
  alloc hf.1 (.hobj hf.2)

/-- Reads a property as an address, allocating a fresh `hundef` node
when the property is absent (JavaScript just produces the value
`undefined`; giving it a fresh address keeps the model uniform and
allocation-only). -/
def hGetPropA (h : Heap) (a : Nat) (key : String) : Heap × Nat :=
  match hGetProp (readNode h a) key with
  | some c => (h, c)
  | none => alloc h (.hundef)

/-- One iteration of the `for` loop of `updateNested` at the heap level
(same lines of source as `loopStep`): copy the current container
(allocation), replace the named child inside the copy by a fresh object
spread of itself (a write to the just-allocated copy), and descend. -/
def hLoopStep (st : Heap × Nat) (tok : List Char) : Heap × Nat :=
  let h := st.1
  let cur := st.2
  let keyChars := stripFirstRBracket tok
  let node := readNode h cur
  match node with
  | .harr elems _props =>
    -- current = [...current]
    let al := alloc h (.harr elems [])
    let h1 := al.1
    let a1 := al.2
    let idxKey := numToKey (parseIntJS keyChars)
    -- current[parseInt(key)] = { ...current[parseInt(key)] }
    let gc := hGetPropA h1 a1 idxKey
    let sp := hObjectSpread gc.1 gc.2
    let h2 := sp.1
    let a2 := sp.2
    let au := alloc h2 .hundef
    let h3 := au.1
    let h4 := h3.set a1 (hSetProp (readNode h3 a1) idxKey a2 au.2)
    -- current = current[parseInt(key)]
    let nx := hGetPropA h4 a1 idxKey
    (nx.1, nx.2)
  | _ =>
    -- current = { ...current }
    let key := String.mk keyChars
    let sp0 := hObjectSpread h cur
    let h1 := sp0.1
    let a1 := sp0.2
    -- current[key] = { ...current[key] }
    let gc := hGetPropA h1 a1 key
    let sp := hObjectSpread gc.1 gc.2
    let h2 := sp.1
    let a2 := sp.2
    let au := alloc h2 .hundef
    let h3 := au.1
    let h4 := h3.set a1 (hSetProp (readNode h3 a1) key a2 au.2)
    -- current = current[key]
    let nx := hGetPropA h4 a1 key
    (nx.1, nx.2)

/-- The `updateNested` closure once more, now at the heap level: takes
the heap, the address of the tree and the address of the new value, and
returns the extended heap and the address of the result. -/
def updateNestedH (h : Heap) (rootA : Nat) (p : String) (valA : Nat) : Heap × Nat :=
  let node := readNode h rootA
  -- if (typeof obj !== "object" || obj === null) return val
  if hTypeofObject node = false ∨ node = HNode.hnull then (h, valA)
  else
    let paths := splitTokens p
    let walked := paths.dropLast.foldl hLoopStep (h, rootA)
    let h1 := walked.1
    let cur := walked.2
    let lastKeyChars := stripFirstRBracket (paths.getLastD [])
    let node1 := readNode h1 cur
    if hIsArray node1 then
      -- const arr = [...current]; arr[parseInt(lastKey)] = val; return arr
      let elems := (match node1 with | .harr es _ => es | _ => [])
      let al := alloc h1 (.harr elems [])
      let au := alloc al.1 .hundef
      let h2 := au.1
      let h3 := h2.set al.2
        (hSetProp (readNode h2 al.2) (numToKey (parseIntJS lastKeyChars)) valA au.2)
      (h3, al.2)
    else
      -- const objCopy = { ...current }; objCopy[lastKey] = val; return objCopy
      let sp := hObjectSpread h1 cur
      let au := alloc sp.1 .hundef
      let h2 := au.1
      let h3 := h2.set sp.2 (hSetProp (readNode h2 sp.2) (String.mk lastKeyChars) valA au.2)
      (h3, sp.2)

/-- A node is closed below `bound` when every child address it stores is
smaller than `bound`. -/
def hNodeClosed (bound : Nat) : HNode → Bool
  | .harr elems props =>
    elems.all (fun a => a < bound) && props.all (fun kv => kv.2 < bound)
  | .hobj fields => fields.all (fun kv => kv.2 < bound)
  | _ => true

/-- Closedness of a whole heap: every stored child address points into
the heap. -/
def heapClosed (h : Heap) : Bool := h.all (hNodeClosed h.length)

/-- Deep read of the value stored at an address, with a recursion budget
(the heap is untyped, so the budget makes the read total; on a closed
acyclic heap a budget of the heap size is always enough). -/
def readVal : Nat → Heap → Nat → JSVal
  | 0, _, _ => .undef
  | fuel + 1, h, a =>
    match readNode h a with
    | .hstr s => .str s
    | .hnum m e => .num m e
    | .hbool b => .bool b
    | .hnull => .null
    | .hundef => .undef
    | .harr elems props =>
      .arr (elems.map (readVal fuel h))
        (props.map (fun kv => (kv.1, readVal fuel h kv.2)))
    | .hobj fields => .obj (fields.map (fun kv => (kv.1, readVal fuel h kv.2)))

/-- `h1` preserves `h0`: the nodes of the original heap are an unchanged
prefix of the new heap. -/
def heapExtends (h0 h1 : Heap) : Prop := List.take h0.length h1 = h0

/-- A heap preserves itself. -/
theorem heapExtends_refl (h : Heap) : heapExtends h h := List.take_length h

/-- A preserved heap is no longer than its extension. -/
theorem heapExtends_length {h0 h1 : Heap} (h : heapExtends h0 h1) :
    h0.length ≤ h1.length := by
  unfold heapExtends at h
  have hl := congrArg List.length h
  rw [List.length_take] at hl
  omega

/-- Preservation composes. -/
theorem heapExtends_trans {h0 h1 h2 : Heap} (a : heapExtends h0 h1)
    (b : heapExtends h1 h2) : heapExtends h0 h2 := by
  have hl : h0.length ≤ h1.length := heapExtends_length a
  unfold heapExtends at *
  calc List.take h0.length h2
      = List.take h0.length (List.take h1.length h2) := by
        rw [List.take_take, Nat.min_eq_left hl]
    _ = h0 := by rw [b]; exact a

/-- Appending nodes preserves the heap. -/
theorem heapExtends_append (h0 : Heap) (ns : List HNode) :
    heapExtends h0 (h0 ++ ns) := List.take_left h0 ns

/-- Allocation preserves any heap the current one preserves. -/
theorem alloc_extends {h0 h1 : Heap} (he : heapExtends h0 h1) (n : HNode) :
    heapExtends h0 (alloc h1 n).1 :=
  heapExtends_trans he (heapExtends_append h1 [n])

/-- A write at an address outside the preserved prefix keeps preserving
it. -/
theorem set_extends {h0 h1 : Heap} (he : heapExtends h0 h1) {a : Nat}
    (ha : h0.length ≤ a) (n : HNode) : heapExtends h0 (h1.set a n) := by
  unfold heapExtends at *
  rw [List.set_take, he, List.set_eq_of_length_le ha]

/-- The address returned by `alloc`. -/
theorem alloc_snd (h : Heap) (n : HNode) : (alloc h n).2 = h.length := rfl

/-- A fold whose every step preserves the heap preserves the heap. -/
theorem foldl_extends {α β : Type} (f : Heap × β → α → Heap × β)
    (hf : ∀ st a, heapExtends st.1 (f st a).1) :
    ∀ (l : List α) (st : Heap × β), heapExtends st.1 (List.foldl f st l).1 := by
  intro l
  induction l with
  | nil => exact fun st => heapExtends_refl _
  | cons a rest ih =>
    exact fun st => heapExtends_trans (hf st a) (ih (f st a))

/-- Spreading any node only allocates. -/
theorem hSpreadFields_extends (h : Heap) (a : Nat) :
    heapExtends h (hSpreadFields h a).1 := by
  unfold hSpreadFields
  rcases readNode h a with s | _ | _ | _ | _ | _ | _ <;> try exact heapExtends_refl h
  · dsimp only
    exact foldl_extends
      (fun acc p =>
        ((alloc acc.1 (HNode.hstr (String.mk [p.2]))).1,
          acc.2 ++ [(natToString p.1, (alloc acc.1 (HNode.hstr (String.mk [p.2]))).2)]))
      (fun st p => alloc_extends (heapExtends_refl _) _) s.toList.enum (h, [])

/-- An object spread only allocates. -/
theorem hObjectSpread_extends (h : Heap) (a : Nat) :
    heapExtends h (hObjectSpread h a).1 :=
  heapExtends_trans (hSpreadFields_extends h a)
    (alloc_extends (heapExtends_refl _) _)

/-- The address an object spread returns lies past the original heap. -/
theorem hObjectSpread_snd_ge (h : Heap) (a : Nat) :
    h.length ≤ (hObjectSpread h a).2 := by
  unfold hObjectSpread
  rw [alloc_snd]
  exact heapExtends_length (hSpreadFields_extends h a)

/-- Reading a property as an address only allocates. -/
theorem hGetPropA_extends (h : Heap) (a : Nat) (k : String) :
    heapExtends h (hGetPropA h a k).1 := by
  unfold hGetPropA
  rcases hGetProp (readNode h a) k with _ | c
  · exact alloc_extends (heapExtends_refl _) _
  · exact heapExtends_refl _

/-- One loop iteration of the heap-level updater preserves the incoming
heap: it allocates copies and writes only to the copy it has just
allocated, whose address lies past the incoming heap. -/
theorem hLoopStep_extends (st : Heap × Nat) (tok : List Char) :
    heapExtends st.1 (hLoopStep st tok).1 := by
  obtain ⟨h, cur⟩ := st
  rcases hn : readNode h cur with _ | _ | _ | _ | _ | ⟨elems, props⟩ | _ <;>
    simp only [hLoopStep, hn]
  case harr =>
    refine heapExtends_trans ?_ (hGetPropA_extends _ _ _)
    refine set_extends ?_ ?_ _
    · exact alloc_extends
        (heapExtends_trans (hGetPropA_extends _ _ _)
          (hObjectSpread_extends _ _)) HNode.hundef
        |> heapExtends_trans (alloc_extends (heapExtends_refl h) (HNode.harr elems []))
    · rw [alloc_snd]
  all_goals
    refine heapExtends_trans ?_ (hGetPropA_extends _ _ _)
  all_goals
    refine set_extends ?_ ?_ _
  case hstr.refine_1 | hnum.refine_1 | hbool.refine_1 | hnull.refine_1 |
      hundef.refine_1 | hobj.refine_1 =>
    exact heapExtends_trans (hObjectSpread_extends h cur)
      (heapExtends_trans (hGetPropA_extends _ _ _)
        (heapExtends_trans (hObjectSpread_extends _ _)
          (alloc_extends (heapExtends_refl _) HNode.hundef)))
  all_goals exact hObjectSpread_snd_ge h cur

/-- The heap-level updater preserves its input heap: every node of the
original heap is unchanged in the result, for all inputs (well-formed
paths or not).  This is the formal content of "the original tree is
never mutated in place". -/
theorem updateNestedH_extends (h : Heap) (rootA : Nat) (p : String) (valA : Nat) :
    heapExtends h (updateNestedH h rootA p valA).1 := by
  unfold updateNestedH
  by_cases hg : hTypeofObject (readNode h rootA) = false ∨ readNode h rootA = HNode.hnull
  · rw [if_pos hg]
    exact heapExtends_refl h
  · rw [if_neg hg]
    have hwalk : heapExtends h
        (List.foldl hLoopStep (h, rootA) (splitTokens p).dropLast).1 :=
      foldl_extends hLoopStep hLoopStep_extends (splitTokens p).dropLast (h, rootA)
    have hlen : h.length ≤
        (List.foldl hLoopStep (h, rootA) (splitTokens p).dropLast).1.length :=
      heapExtends_length hwalk
    dsimp only
    split
    · refine set_extends ?_ ?_ _
      · exact heapExtends_trans hwalk
          (heapExtends_trans (alloc_extends (heapExtends_refl _) _)
            (alloc_extends (heapExtends_refl _) HNode.hundef))
      · rw [alloc_snd]
        exact hlen
    · refine set_extends ?_ ?_ _
      · exact heapExtends_trans hwalk
          (heapExtends_trans (hObjectSpread_extends _ _)
            (alloc_extends (heapExtends_refl _) HNode.hundef))
      · exact Nat.le_trans hlen (hObjectSpread_snd_ge _ _)

/-- Reading a preserved address gives the original node. -/
theorem readNode_extends {h0 h1 : Heap} (he : heapExtends h0 h1) {a : Nat}
    (ha : a < h0.length) : readNode h1 a = readNode h0 a := by
  unfold readNode
  rw [List.getD_eq_getElem?_getD, List.getD_eq_getElem?_getD]
  have hq : h0[a]? = h1[a]? := by
    conv_lhs => rw [← he]
    rw [List.getElem?_take]
    exact if_pos ha
  rw [hq]

/-- A node read from inside a heap is a member of it. -/
theorem readNode_mem (h : Heap) (a : Nat) (ha : a < h.length) :
    readNode h a ∈ h := by
  unfold readNode
  rw [List.getD_eq_getElem?_getD, List.getElem?_eq_getElem ha]
  exact List.getElem_mem ha

/-- On a closed heap, deep reads at preserved addresses are unchanged by
any heap extension: the whole value rooted at an original address is
intact. -/
theorem readVal_extends {h0 h1 : Heap} (hc : heapClosed h0 = true)
    (he : heapExtends h0 h1) :
    ∀ (fuel a : Nat), a < h0.length → readVal fuel h1 a = readVal fuel h0 a := by
  intro fuel
  induction fuel with
  | zero => intro a _; rfl
  | succ fuel ih =>
    intro a ha
    have hclosed : hNodeClosed h0.length (readNode h0 a) = true :=
      List.all_eq_true.mp hc _ (readNode_mem h0 a ha)
    simp only [readVal, readNode_extends he ha]
    rcases hn : readNode h0 a with _ | _ | _ | _ | _ | ⟨elems, props⟩ | fields <;>
      simp only []
    case harr =>
      rw [hn] at hclosed
      unfold hNodeClosed at hclosed
      rw [Bool.and_eq_true, List.all_eq_true, List.all_eq_true] at hclosed
      obtain ⟨hce, hcp⟩ := hclosed
      have he1 : List.map (readVal fuel h1) elems = List.map (readVal fuel h0) elems :=
        List.map_congr_left (fun x hx => ih x (by simpa using hce x hx))
      have he2 : List.map (fun kv => (kv.1, readVal fuel h1 kv.2)) props =
          List.map (fun kv => (kv.1, readVal fuel h0 kv.2)) props :=
        List.map_congr_left (fun kv hkv => by rw [ih kv.2 (by simpa using hcp kv hkv)])
      rw [he1, he2]
    case hobj =>
      rw [hn] at hclosed
      unfold hNodeClosed at hclosed
      rw [List.all_eq_true] at hclosed
      have he2 : List.map (fun kv => (kv.1, readVal fuel h1 kv.2)) fields =
          List.map (fun kv => (kv.1, readVal fuel h0 kv.2)) fields :=
        List.map_congr_left (fun kv hkv => by rw [ih kv.2 (by simpa using hclosed kv hkv)])
      rw [he2]

/-- Claim C4: the updater never mutates the original tree in place.  At
the reference level, every write `updateNestedH` performs targets a node
allocated during the call itself, so the original heap is an unchanged
prefix of the result (first conjunct); consequently, on a closed heap,
the value read back from the original root after the call — at any
recursion budget — is exactly the value before the call (second
conjunct).  Both hold for every heap, root, path string and new value,
not only well-formed ones. -/
theorem c4_no_in_place_mutation (h : Heap) (rootA : Nat) (p : String) (valA : Nat) :
    List.take h.length (updateNestedH h rootA p valA).1 = h ∧
    (heapClosed h = true → rootA < h.length → ∀ fuel : Nat,
      readVal fuel (updateNestedH h rootA p valA).1 rootA = readVal fuel h rootA) :=
  ⟨updateNestedH_extends h rootA p valA,
    fun hc ha fuel =>
      readVal_extends hc (updateNestedH_extends h rootA p valA) fuel rootA ha⟩

/-- Witness for C4 on a concrete two-node closed heap holding the tree
`obj [a ↦ 1]` at address 0, updated along the renderer path `root.a`. -/
theorem c4_witness :
    List.take 2 (updateNestedH [HNode.hobj [("a", 1)], HNode.hnum 1 0] 0 "root.a" 1).1 =
      [HNode.hobj [("a", 1)], HNode.hnum 1 0] ∧
    heapClosed [HNode.hobj [("a", 1)], HNode.hnum 1 0] = true ∧
    readVal 2 (updateNestedH [HNode.hobj [("a", 1)], HNode.hnum 1 0] 0 "root.a" 1).1 0 =
      readVal 2 [HNode.hobj [("a", 1)], HNode.hnum 1 0] 0 :=
  ⟨(c4_no_in_place_mutation [HNode.hobj [("a", 1)], HNode.hnum 1 0] 0 "root.a" 1).1,
    by decide,
    (c4_no_in_place_mutation [HNode.hobj [("a", 1)], HNode.hnum 1 0] 0 "root.a" 1).2
      (by decide) (by decide) 2⟩

/-!
Supporting lemmas and the claim theorems.
-/

/-- Skipping whitespace stops at a non-whitespace head. -/
theorem skipWs_cons_not_ws {c : Char} (h : isJsWhitespace c = false) (l : List Char) :
    skipWs (c :: l) = c :: l := by
  unfold skipWs
  rw [List.dropWhile_cons, if_neg (by simp [h])]

/-- Skipping whitespace crosses an all-whitespace prefix. -/
theorem skipWs_append_ws (l1 l2 : List Char) (h : ∀ c ∈ l1, isJsWhitespace c = true) :
    skipWs (l1 ++ l2) = skipWs l2 := by
  induction l1 with
  | nil => rfl
  | cons c rest ih =>
    unfold skipWs at *
    rw [List.cons_append, List.dropWhile_cons, if_pos (by simp [h c (by simp)])]
    exact ih (fun x hx => h x (by simp [hx]))

/-- Skipping whitespace is idempotent. -/
theorem skipWs_idem (l : List Char) : skipWs (skipWs l) = skipWs l := by
  unfold skipWs
  induction l with
  | nil => rfl
  | cons c rest ih =>
    rw [List.dropWhile_cons]
    split
    · exact ih
    · rw [List.dropWhile_cons, if_neg (by assumption)]

/-- Every character of an indentation run is whitespace. -/
theorem spaces_all_ws (n : Nat) : ∀ c ∈ (spaces n).toList, isJsWhitespace c = true := by
  intro c hc
  have hrep : (spaces n).toList = List.replicate n ' ' := rfl
  rw [hrep, List.mem_replicate] at hc
  rw [hc.2]
  rfl

/-- The value parser is insensitive to leading whitespace. -/
theorem parseValue_skipWs (fuel : Nat) (s : List Char) :
    parseValue fuel s = parseValue fuel (skipWs s) := by
  cases fuel with
  | zero => rfl
  | succ fuel => simp only [parseValue, skipWs_idem]

/-- A digit character is none of the parser's dispatch characters. -/
theorem digit_char_classes (c : Char) (h : c.isDigit = true) :
    c ≠ '"' ∧ c ≠ lbrace ∧ c ≠ '[' ∧ c ≠ 't' ∧ c ≠ 'f' ∧ c ≠ 'n' ∧ c ≠ '.' ∧
      c ≠ 'e' ∧ c ≠ 'E' ∧ c ≠ ',' ∧ c ≠ ']' ∧ c ≠ rbrace ∧ c ≠ ':' := by
  refine ⟨?_, ?_, ?_, ?_, ?_, ?_, ?_, ?_, ?_, ?_, ?_, ?_, ?_⟩ <;> rintro rfl <;>
    exact absurd h (by decide)

/-- Reading back a printed hexadecimal digit. -/
theorem hexVal_hexDigitChar (n : Nat) (h : n < 16) :
    hexVal? (hexDigitChar n) = some n := by
  interval_cases n <;> decide

/-- Escaping a character yields at least one character. -/
theorem escapeChar_length_pos (c : Char) : 1 ≤ (escapeChar c).length := by
  unfold escapeChar
  repeat' split
  all_goals simp

/-- An escaped text is at least as long as the original. -/
theorem escaped_length_ge (cs : List Char) :
    cs.length ≤ ((cs.map escapeChar).flatten).length := by
  induction cs with
  | nil => simp
  | cons c rest ih =>
    rw [List.map_cons, List.flatten_cons, List.length_append, List.length_cons]
    have := escapeChar_length_pos c
    omega

/-- Parsing back one escaped character followed by anything: the string
body parser decodes exactly the original character. -/
theorem parseStringBody_roundtrip (cs : List Char) :
    ∀ (fuel : Nat) (rest : List Char), cs.length < fuel →
      parseStringBody fuel ((cs.map escapeChar).flatten ++ '"' :: rest) = .ok (cs, rest) := by
  induction cs with
  | nil =>
    intro fuel rest hf
    cases fuel with
    | zero => omega
    | succ fuel => simp [parseStringBody]
  | cons c cs ih =>
    intro fuel rest hf
    cases fuel with
    | zero => omega
    | succ fuel =>
      have ihr := ih fuel rest (by simp at hf ⊢; omega)
      rw [List.map_cons, List.flatten_cons, List.append_assoc]
      by_cases hq : c = '"'
      · subst hq
        simp [escapeChar, parseStringBody, ihr]
      by_cases hb : c = '\\'
      · subst hb
        simp [escapeChar, parseStringBody, hq, ihr]
      by_cases h08 : c = '\x08'
      · subst h08
        simp [escapeChar, parseStringBody, ihr]
      by_cases h09 : c = '\t'
      · subst h09
        simp [escapeChar, parseStringBody, ihr]
      by_cases h0a : c = '\n'
      · subst h0a
        simp [escapeChar, parseStringBody, ihr]
      by_cases h0c : c = '\x0c'
      · subst h0c
        simp [escapeChar, parseStringBody, ihr]
      by_cases h0d : c = '\r'
      · subst h0d
        simp [escapeChar, parseStringBody, ihr]
      by_cases hctl : c.toNat < 32
      · have h16a : c.toNat / 16 < 16 := by omega
        have h16b : c.toNat % 16 < 16 := by omega
        have hx1 := hexVal_hexDigitChar _ h16a
        have hx2 := hexVal_hexDigitChar _ h16b
        have hcode : ((0 * 16 + 0) * 16 + c.toNat / 16) * 16 + c.toNat % 16 = c.toNat := by
          omega
        simp only [escapeChar, if_neg hq, if_neg hb, if_neg h08, if_neg h09, if_neg h0a,
          if_neg h0c, if_neg h0d, if_pos hctl]
        have h0v : hexVal? '0' = some 0 := by decide
        have hlt : c.toNat < 55296 := by omega
        have hcode2 : c.toNat / 16 * 16 + c.toNat % 16 = c.toNat := by omega
        simp [parseStringBody, h0v, hx1, hx2, hcode2, Char.ofNat_toNat, ihr, hlt]
      · simp only [escapeChar, if_neg hq, if_neg hb, if_neg h08, if_neg h09, if_neg h0a,
          if_neg h0c, if_neg h0d, if_neg hctl]
        simp [parseStringBody, hq, hb, hctl, ihr]


/-- Digit characters are digits. -/
theorem digitChar_isDigit (n : Nat) (h : n < 10) : (digitChar n).isDigit = true := by
  interval_cases n <;> decide

/-- Reading back a digit character. -/
theorem digitVal_digitChar (n : Nat) (h : n < 10) : digitVal (digitChar n) = n := by
  interval_cases n <;> decide

/-- The printing worker ignores surplus fuel. -/
theorem natToDigitsAux_congr :
    ∀ (f1 f2 n : Nat) (acc : List Char), n < f1 → n < f2 →
      natToDigitsAux f1 n acc = natToDigitsAux f2 n acc := by
  intro f1
  induction f1 with
  | zero => intro f2 n acc h1 _; omega
  | succ f1 ih =>
    intro f2 n acc h1 h2
    cases f2 with
    | zero => omega
    | succ f2 =>
      simp only [natToDigitsAux]
      by_cases h10 : n < 10
      · simp [h10]
      · simp only [if_neg h10]
        have hlt : n / 10 < n := Nat.div_lt_self (by omega) (by omega)
        exact ih f2 (n / 10) _ (by omega) (by omega)

/-- The printing worker is the no-accumulator form followed by the
accumulator. -/
theorem natToDigitsAux_append (fuel : Nat) :
    ∀ (n : Nat) (acc : List Char), n < fuel →
      natToDigitsAux fuel n acc = natToDigitsAux fuel n [] ++ acc := by
  induction fuel with
  | zero => intro n acc h; omega
  | succ fuel ih =>
    intro n acc h
    simp only [natToDigitsAux]
    by_cases h10 : n < 10
    · simp [h10]
    · simp only [if_neg h10]
      have hlt : n / 10 < n := Nat.div_lt_self (by omega) (by omega)
      rw [ih (n / 10) _ (by omega), ih (n / 10) [digitChar (n % 10)] (by omega)]
      simp

/-- The defining equation of `natToDigits` in its natural recursive
form. -/
theorem natToDigits_eq (n : Nat) :
    natToDigits n =
      if n < 10 then [digitChar n] else natToDigits (n / 10) ++ [digitChar (n % 10)] := by
  by_cases h10 : n < 10
  · rw [if_pos h10]
    unfold natToDigits
    simp [natToDigitsAux, h10]
  · rw [if_neg h10]
    have hlt : n / 10 < n := Nat.div_lt_self (by omega) (by omega)
    have hstep : natToDigitsAux (n + 1) n [] = natToDigitsAux n (n / 10) [digitChar (n % 10)] := by
      simp [natToDigitsAux, h10]
    unfold natToDigits
    rw [hstep, natToDigitsAux_append n (n / 10) _ (by omega),
        natToDigitsAux_congr n (n / 10 + 1) (n / 10) [] (by omega) (by omega)]

/-- A printed number is never the empty digit string. -/
theorem natToDigits_ne_nil (n : Nat) : natToDigits n ≠ [] := by
  rw [natToDigits_eq]
  split <;> simp

/-- Every character of a printed number is a digit. -/
theorem natToDigits_all_digits (n : Nat) :
    ∀ c ∈ natToDigits n, c.isDigit = true := by
  induction n using Nat.strong_induction_on with
  | _ n ih =>
    rw [natToDigits_eq]
    by_cases h10 : n < 10
    · simp only [if_pos h10, List.mem_singleton]
      rintro c rfl
      exact digitChar_isDigit n h10
    · simp only [if_neg h10, List.mem_append, List.mem_singleton]
      rintro c (hc | rfl)
      · exact ih (n / 10) (Nat.div_lt_self (by omega) (by omega)) c hc
      · exact digitChar_isDigit (n % 10) (Nat.mod_lt _ (by omega))

/-- Folding the base-10 reading from an arbitrary seed. -/
theorem foldl_digits_init (b : List Char) :
    ∀ i : Nat, List.foldl (fun a c => 10 * a + digitVal c) i b =
      i * 10 ^ b.length + digitsToNat b := by
  induction b with
  | nil => intro i; simp [digitsToNat]
  | cons c cs ih =>
    intro i
    have hc : digitsToNat (c :: cs) = digitVal c * 10 ^ cs.length + digitsToNat cs := by
      show List.foldl _ (10 * 0 + digitVal c) cs = _
      rw [ih (10 * 0 + digitVal c)]
      norm_num
    simp only [List.foldl_cons, List.length_cons]
    rw [ih (10 * i + digitVal c), hc]
    ring

/-- Reading a concatenation of digit strings. -/
theorem digitsToNat_append (a b : List Char) :
    digitsToNat (a ++ b) = digitsToNat a * 10 ^ b.length + digitsToNat b := by
  unfold digitsToNat
  rw [List.foldl_append]
  exact foldl_digits_init b _

/-- Reading back a printed number. -/
theorem digitsToNat_natToDigits (n : Nat) : digitsToNat (natToDigits n) = n := by
  induction n using Nat.strong_induction_on with
  | _ n ih =>
    rw [natToDigits_eq]
    by_cases h10 : n < 10
    · simp only [if_pos h10]
      unfold digitsToNat
      simp [digitVal_digitChar n h10]
    · simp only [if_neg h10]
      rw [digitsToNat_append, ih (n / 10) (Nat.div_lt_self (by omega) (by omega))]
      have hone : digitsToNat [digitChar (n % 10)] = n % 10 := by
        unfold digitsToNat
        simp [digitVal_digitChar (n % 10) (Nat.mod_lt _ (by omega))]
      rw [hone]
      simp only [List.length_cons, List.length_nil, pow_one, zero_add]
      omega

/-- A printed nonzero number does not start with the digit zero. -/
theorem natToDigits_head_pos (n : Nat) (h : n ≠ 0) :
    ∀ (c : Char) (rest : List Char), natToDigits n = c :: rest → c ≠ '0' := by
  induction n using Nat.strong_induction_on with
  | _ n ih =>
    intro c rest hd
    rw [natToDigits_eq] at hd
    by_cases h10 : n < 10
    · rw [if_pos h10] at hd
      injection hd with h1 _
      subst h1
      interval_cases n
      all_goals first | (exact absurd rfl h) | decide
    · rw [if_neg h10] at hd
      rcases hne : natToDigits (n / 10) with _ | ⟨c1, r1⟩
      · exact absurd hne (natToDigits_ne_nil _)
      · rw [hne, List.cons_append] at hd
        injection hd with h1 _
        subst h1
        exact ih (n / 10) (Nat.div_lt_self (by omega) (by omega)) (by omega) c1 r1 hne

/-- `canonIndex` recognises the canonical printing of every natural
number. -/
theorem canonIndex_natToString (n : Nat) : canonIndex (natToString n) = some n := by
  have htl : (natToString n).toList = natToDigits n := rfl
  rcases hne : natToDigits n with _ | ⟨c, rest⟩
  · exact absurd hne (natToDigits_ne_nil n)
  · have hall : ∀ x ∈ c :: rest, x.isDigit = true := by
      rw [← hne]; exact natToDigits_all_digits n
    have hzero : c = '0' → rest = [] := by
      intro hc
      by_cases hn : n = 0
      · subst hn
        have h0 : natToDigits 0 = ['0'] := rfl
        rw [h0] at hne
        injection hne with _ h2
        exact h2.symm
      · exact absurd hc (natToDigits_head_pos n hn c rest hne)
    have hred : canonIndex (natToString n) =
        if (c :: rest).all Char.isDigit = true ∧ (c = '0' → rest = []) then
          some (digitsToNat (c :: rest)) else none := by
      unfold canonIndex
      rw [htl, hne]
    rw [hred, if_pos ⟨List.all_eq_true.mpr (fun x hx => hall x hx), hzero⟩, ← hne,
      digitsToNat_natToDigits]

/-- The canonicalisation worker produces a canonical pair when the fuel
covers the mantissa. -/
theorem canonNumAux_canonical :
    ∀ (fuel : Nat) (m e : Int), m.natAbs < fuel →
      ((canonNumAux fuel m e).1 = 0 → canonNumAux fuel m e = (0, 0)) ∧
      ((canonNumAux fuel m e).1 ≠ 0 → ¬(10 ∣ (canonNumAux fuel m e).1)) := by
  intro fuel
  induction fuel with
  | zero => intro m e h; omega
  | succ fuel ih =>
    intro m e h
    simp only [canonNumAux]
    by_cases hm : m = 0
    · simp [hm]
    · simp only [if_neg hm]
      by_cases h10 : m % 10 = 0
      · simp only [if_pos h10]
        obtain ⟨k, hk⟩ := Int.dvd_of_emod_eq_zero h10
        have hk0 : k ≠ 0 := by
          rintro rfl
          exact hm (by omega)
        have hdiv : m / 10 = k := by
          rw [hk]
          exact Int.mul_ediv_cancel_left _ (by norm_num)
        have habs : (m / 10).natAbs < fuel := by
          have hma : m.natAbs = 10 * k.natAbs := by
            rw [hk, Int.natAbs_mul]
            norm_num
          have hkpos : k.natAbs ≠ 0 := Int.natAbs_ne_zero.mpr hk0
          rw [hdiv]
          omega
        exact ih (m / 10) (e + 1) habs
      · simp only [if_neg h10]
        refine ⟨fun h0 => absurd h0 hm, fun _ hdvd => ?_⟩
        exact h10 (Int.emod_eq_zero_of_dvd hdvd)

/-- `canonNum` produces a canonical pair. -/
theorem canonNum_canonical (m e : Int) :
    ((canonNum m e).1 = 0 → canonNum m e = (0, 0)) ∧
      ((canonNum m e).1 ≠ 0 → ¬(10 ∣ (canonNum m e).1)) :=
  canonNumAux_canonical (m.natAbs + 1) m e (by omega)

/-- Every pair `parseFloatJS` returns is canonical: a zero mantissa
forces the zero pair. -/
theorem parseFloatJS_zero (s : List Char) (r : Int × Int)
    (h : parseFloatJS s = some r) : r.1 = 0 → r = (0, 0) := by
  unfold parseFloatJS at h
  dsimp only at h
  split at h
  · exact absurd h (by simp)
  · injection h with h2
    rw [← h2]
    exact (canonNum_canonical _ _).1

/-- Claim C7: the numeric field edit callback delivers the entered text
parsed as a floating-point number, and substitutes exactly `0` whenever
the parse fails (`parseFloat` gives `NaN`, which is falsy, so `|| 0`
replaces it) — never an error and never the prior value.  A parse that
succeeds with value `0` is also falsy, but the substituted `0` is that
same value. -/
theorem c7_numeric_fallback :
    (∀ s : String, parseFloatJS s.toList = none → numericEdit s = JSVal.num 0 0) ∧
    (∀ (s : String) (m e : Int),
      parseFloatJS s.toList = some (m, e) → numericEdit s = JSVal.num m e) ∧
    parseFloatJS "abc".toList = none := by
  refine ⟨?_, ?_, rfl⟩
  · intro s h
    unfold numericEdit
    rw [h]
  · intro s m e h
    unfold numericEdit
    rw [h]
    by_cases hm : m = 0
    · have h00 : ((m, e) : Int × Int) = (0, 0) := parseFloatJS_zero _ _ h hm
      injection h00 with h1 h2
      subst h1; subst h2
      simp
    · simp [hm]

/-- Witness for C7: the spec's failing input `abc` yields `0`, and a
succeeding input is delivered as parsed. -/
theorem c7_witness :
    parseFloatJS "abc".toList = none ∧ numericEdit "abc" = JSVal.num 0 0 ∧
    parseFloatJS "2.5".toList = some (25, -1) ∧ numericEdit "2.5" = JSVal.num 25 (-1) :=
  ⟨rfl, c7_numeric_fallback.1 "abc" rfl, rfl, c7_numeric_fallback.2.1 "2.5" 25 (-1) rfl⟩

/-- A digit character is not JSON whitespace. -/
theorem isDigit_not_ws (c : Char) (h : c.isDigit = true) : isJsWhitespace c = false := by
  by_contra hws
  rw [Bool.not_eq_false] at hws
  have hp : c = ' ' ∨ c = '\t' ∨ c = '\n' ∨ c = '\r' := by
    simpa [isJsWhitespace] using hws
  rcases hp with rfl | rfl | rfl | rfl <;> exact absurd h (by decide)

/-- A digit character is not a sign character. -/
theorem isDigit_not_sign (c : Char) (h : c.isDigit = true) : c ≠ '-' ∧ c ≠ '+' := by
  constructor <;> rintro rfl <;> exact absurd h (by decide)

/-- `parseInt` reads back the canonical printing of a natural number. -/
theorem parseIntJS_natToDigits (n : Nat) : parseIntJS (natToDigits n) = some (n : Int) := by
  rcases hne : natToDigits n with _ | ⟨c, rest⟩
  · exact absurd hne (natToDigits_ne_nil n)
  · have hall : ∀ x ∈ c :: rest, x.isDigit = true := by
      rw [← hne]; exact natToDigits_all_digits n
    have hc : c.isDigit = true := hall c (by simp)
    have hdrop : (c :: rest).dropWhile isJsWhitespace = c :: rest := by
      rw [List.dropWhile_cons, if_neg (by simp [isDigit_not_ws c hc])]
    have htake : (c :: rest).takeWhile Char.isDigit = c :: rest :=
      List.takeWhile_eq_self_iff.mpr hall
    obtain ⟨hm, hp⟩ := isDigit_not_sign c hc
    have hval : digitsToNat (c :: rest) = n := by
      rw [← hne]; exact digitsToNat_natToDigits n
    simp [parseIntJS, hdrop, hm, hp, htake, hval]

/-- The integer printing of a natural number is its natural printing. -/
theorem intToString_ofNat (n : Nat) : intToString (n : Int) = natToString n := by
  unfold intToString
  rw [if_neg (by omega)]
  simp [Int.natAbs_ofNat]

/-- Binding a key absent from an association list appends it. -/
theorem setField_absent (fields : List (String × JSVal)) (k : String) (v : JSVal)
    (h : lookupField fields k = none) : setField fields k v = fields ++ [(k, v)] := by
  induction fields with
  | nil => rfl
  | cons kv rest ih =>
    obtain ⟨k1, v1⟩ := kv
    simp only [lookupField] at h
    by_cases hk : k1 = k
    · rw [if_pos hk] at h
      exact absurd h (by simp)
    · rw [if_neg hk] at h
      simp only [setField, if_neg hk, List.cons_append]
      rw [ih h]

/-- Reading any property from an array value cannot throw. -/
theorem jsGet_ok_of_array (v : JSVal) (k : String) (h : isArrayV v = true) :
    ∃ r, jsGet v k = .ok r := by
  cases v <;> simp [isArrayV] at h
  exact ⟨_, rfl⟩

/-- A property write on an array value yields an array value. -/
theorem isArrayV_jsSet_arr (es : List JSVal) (ps : List (String × JSVal))
    (k : String) (x : JSVal) : isArrayV (jsSet (.arr es ps) k x) = true := by
  unfold jsSet
  rcases hc : canonIndex k with _ | n <;> simp only [hc]
  · simp [isArrayV]
  · split <;> simp [isArrayV]

/-- Both property accesses of an array-branch loop iteration succeed. -/
theorem arrStep_ok (a : JSVal) (k : String) (h : isArrayV a = true) :
    ∃ v, (jsGet a k >>= fun child => jsGet (jsSet a k (objectSpread child)) k) = .ok v := by
  obtain ⟨c, hc⟩ := jsGet_ok_of_array a k h
  rw [hc]
  show ∃ v, jsGet (jsSet a k (objectSpread c)) k = .ok v
  rcases a with _ | _ | _ | _ | _ | ⟨es, ps⟩ | _ <;> simp [isArrayV] at h
  exact jsGet_ok_of_array _ k (isArrayV_jsSet_arr es ps k (objectSpread c))

/-- One loop iteration of the updater never throws, whatever the current
value and token: every property read happens on a fresh copy, which is
an array or a plain object, never `null` or `undefined`. -/
theorem loopStep_ok (current : JSVal) (tok : List Char) :
    ∃ v, loopStep current tok = .ok v := by
  rcases current with s | ⟨m, e⟩ | b | _ | _ | ⟨es, ps⟩ | f
  case arr =>
    exact arrStep_ok (arrayCopy (JSVal.arr es ps))
      (numToKey (parseIntJS (stripFirstRBracket tok))) rfl
  all_goals exact ⟨_, rfl⟩

/-- The whole walk of the updater loop never throws. -/
theorem walk_ok (toks : List (List Char)) :
    ∀ cur : JSVal, ∃ r, List.foldlM loopStep cur toks = .ok r := by
  induction toks with
  | nil => exact fun cur => ⟨cur, rfl⟩
  | cons t rest ih =>
    intro cur
    obtain ⟨v, hv⟩ := loopStep_ok cur t
    obtain ⟨r, hr⟩ := ih v
    refine ⟨r, ?_⟩
    rw [List.foldlM_cons, hv]
    exact hr

/-- The array case of `jsSet`, as an equation. -/
theorem jsSet_arr_eq (es : List JSVal) (ps : List (String × JSVal)) (k : String)
    (x : JSVal) :
    jsSet (.arr es ps) k x =
      (match canonIndex k with
        | some i =>
          if i < es.length then JSVal.arr (es.set i x) ps
          else JSVal.arr (es ++ List.replicate (i - es.length) JSVal.undef ++ [x]) ps
        | none => JSVal.arr es (setField ps k x)) := rfl

/-- Binding an `ok` result in the `Except` monad. -/
theorem exceptBind_ok {α β : Type} (a : α) (f : α → Except String β) :
    (Except.ok a >>= f : Except String β) = f a := rfl

/-- The updater on a container tree: after the walk the final write goes
into a copy of the walked-to container (source lines 170-179). -/
theorem updateNested_container (t : JSVal) (p : String) (x : JSVal)
    (h1 : typeofObject t = true) (h2 : isNullV t = false) (cur : JSVal)
    (hw : List.foldlM loopStep t (splitTokens p).dropLast = .ok cur) :
    updateNested t p x = .ok
      (if isArrayV cur then
        jsSet (arrayCopy cur)
          (numToKey (parseIntJS (stripFirstRBracket ((splitTokens p).getLastD [])))) x
      else
        jsSet (objectSpread cur)
          (String.mk (stripFirstRBracket ((splitTokens p).getLastD []))) x) := by
  simp only [updateNested]
  rw [if_neg (by simp [h1, h2]), hw, exceptBind_ok]
  by_cases hcur : isArrayV cur = true
  · simp [hcur]
  · simp [hcur]

/-- Claim C6: an update whose final token addresses a slot absent from
the current tree does not raise an exception that reaches the caller:
the embedded updater returns a result for every tree, path and new
value — the only modelled throw sites, property reads on `null` or
`undefined`, are unreachable (first conjunct).  If the container the
walk ends on is a mapping without the last key, the missing key is
created at the end, bound to the new value (second conjunct).  If it is
a sequence and the last token is the index `n` at or past its end, the
sequence is extended by the assignment, the gap filled with `undefined`
holes — the reference behaviour of writing past the end (third
conjunct). -/
theorem c6_absent_slot :
    (∀ (t : JSVal) (p : String) (x : JSVal), ∃ r, updateNested t p x = .ok r) ∧
    (∀ (t : JSVal) (p : String) (x : JSVal) (fields : List (String × JSVal)),
      typeofObject t = true → isNullV t = false →
      List.foldlM loopStep t (splitTokens p).dropLast = .ok (JSVal.obj fields) →
      lookupField fields (String.mk (stripFirstRBracket ((splitTokens p).getLastD []))) =
        none →
      updateNested t p x = .ok (JSVal.obj (fields ++
        [(String.mk (stripFirstRBracket ((splitTokens p).getLastD [])), x)]))) ∧
    (∀ (t : JSVal) (p : String) (x : JSVal) (elems : List JSVal)
        (props : List (String × JSVal)) (n : Nat),
      typeofObject t = true → isNullV t = false →
      List.foldlM loopStep t (splitTokens p).dropLast = .ok (JSVal.arr elems props) →
      stripFirstRBracket ((splitTokens p).getLastD []) = natToDigits n →
      elems.length ≤ n →
      updateNested t p x = .ok (JSVal.arr
        (elems ++ List.replicate (n - elems.length) JSVal.undef ++ [x]) [])) := by
  refine ⟨?_, ?_, ?_⟩
  · intro t p x
    by_cases hg : typeofObject t = false ∨ isNullV t = true
    · exact ⟨x, by simp only [updateNested]; rw [if_pos hg]⟩
    · rw [not_or] at hg
      obtain ⟨hg1, hg2⟩ := hg
      have h1 : typeofObject t = true := by
        cases h : typeofObject t
        · exact absurd h hg1
        · rfl
      have h2 : isNullV t = false := by
        cases h : isNullV t
        · rfl
        · exact absurd h hg2
      obtain ⟨cur, hw⟩ := walk_ok (splitTokens p).dropLast t
      exact ⟨_, updateNested_container t p x h1 h2 cur hw⟩
  · intro t p x fields h1 h2 hw hlook
    have hset := setField_absent fields
      (String.mk (stripFirstRBracket ((splitTokens p).getLastD []))) x hlook
    rw [updateNested_container t p x h1 h2 _ hw, if_neg (by simp [isArrayV])]
    simp only [objectSpread, spreadFields, jsSet, hset]
  · intro t p x elems props n h1 h2 hw hkey hlen
    rw [updateNested_container t p x h1 h2 _ hw, if_pos (by simp [isArrayV])]
    rw [hkey, parseIntJS_natToDigits,
      show numToKey (some (n : Int)) = intToString (n : Int) from rfl, intToString_ofNat]
    show Except.ok (jsSet (JSVal.arr elems []) (natToString n) x) = _
    rw [jsSet_arr_eq]
    simp only [canonIndex_natToString]
    rw [if_neg (by omega)]

/-- Witness for C6: a total result on an arbitrary input, a missing key
created on a one-key mapping, and a write at index 5 of a two-element
sequence extending it with undefined holes. -/
theorem c6_witness :
    (∃ r, updateNested (JSVal.obj [("a", JSVal.num 1 0)]) "x" (JSVal.bool true) = .ok r) ∧
    updateNested (JSVal.obj [("a", JSVal.num 1 0)]) "x" (JSVal.bool true) =
      .ok (JSVal.obj [("a", JSVal.num 1 0), ("x", JSVal.bool true)]) ∧
    updateNested (JSVal.arr [JSVal.num 1 0, JSVal.num 2 0] []) "5" (JSVal.bool true) =
      .ok (JSVal.arr [JSVal.num 1 0, JSVal.num 2 0, JSVal.undef, JSVal.undef, JSVal.undef,
        JSVal.bool true] []) :=
  ⟨c6_absent_slot.1 (JSVal.obj [("a", JSVal.num 1 0)]) "x" (JSVal.bool true),
    c6_absent_slot.2.1 (JSVal.obj [("a", JSVal.num 1 0)]) "x" (JSVal.bool true)
      [("a", JSVal.num 1 0)] rfl rfl rfl rfl,
    c6_absent_slot.2.2 (JSVal.arr [JSVal.num 1 0, JSVal.num 2 0] []) "5" (JSVal.bool true)
      [JSVal.num 1 0, JSVal.num 2 0] [] 5 rfl rfl rfl rfl (by decide)⟩

/-- Claim C5: for a bare scalar tree (string, number or boolean), the
update discards the tree and returns the new value directly, whatever
the path — the source's entry guard `typeof obj !== "object"` returns
`val` before the path is even tokenized. -/
theorem c5_root_scalar_replaced (v : JSVal) (p : String) (x : JSVal)
    (h : isScalar v = true) : updateNested v p x = .ok x := by
  cases v <;> simp [isScalar] at h <;> rfl

/-- Witness for C5 at the spec's own example: `update(5, "root", true)`
yields `true`. -/
theorem c5_witness :
    isScalar (JSVal.num 5 0) = true ∧
      updateNested (JSVal.num 5 0) "root" (JSVal.bool true) = .ok (JSVal.bool true) :=
  ⟨rfl, c5_root_scalar_replaced (JSVal.num 5 0) "root" (JSVal.bool true) rfl⟩

/-- Claim C1 (evaluation at the failing input): for the two-key tree
`V = obj [a ↦ 1, b ↦ 2]` the renderer produces the leaf path `root.a`,
yet updating `V` there yields the collapsed single-key object `[a ↦ 5]`:
the walk descends into the absent key `root` and the function returns
the innermost copy instead of the rebuilt root, so the sibling `b` is
not reused — it is gone entirely, contradicting update locality. -/
theorem c1_update_not_local :
    topRender (JSVal.obj [("a", JSVal.num 1 0), ("b", JSVal.num 2 0)]) =
      .accordion "root" [.numberField "root.a" 1 0, .numberField "root.b" 2 0] ∧
    updateNested (JSVal.obj [("a", JSVal.num 1 0), ("b", JSVal.num 2 0)]) "root.a"
        (JSVal.num 5 0) = .ok (JSVal.obj [("a", JSVal.num 5 0)]) ∧
    lookupField [("a", JSVal.num 5 0)] "b" = none ∧
    lookupField [("a", JSVal.num 1 0), ("b", JSVal.num 2 0)] "b" = some (JSVal.num 2 0) :=
  ⟨rfl, rfl, rfl, rfl⟩

/-- Claim C2 (evaluation at the failing input): writing back the very
value the renderer reads at `root.a` (the leaf `1`) does not reproduce
the tree: the result is the collapsed object `[a ↦ 1]`, not deeply equal
to the original two-key tree. -/
theorem c2_identical_write_not_noop :
    topRender (JSVal.obj [("a", JSVal.num 1 0), ("b", JSVal.num 2 0)]) =
      .accordion "root" [.numberField "root.a" 1 0, .numberField "root.b" 2 0] ∧
    updateNested (JSVal.obj [("a", JSVal.num 1 0), ("b", JSVal.num 2 0)]) "root.a"
        (JSVal.num 1 0) = .ok (JSVal.obj [("a", JSVal.num 1 0)]) ∧
    JSVal.obj [("a", JSVal.num 1 0)] ≠
      JSVal.obj [("a", JSVal.num 1 0), ("b", JSVal.num 2 0)] :=
  ⟨rfl, rfl, by simp⟩

/-- Claim C3 counterexample: with a previously parsed tree present, a
failed parse does not leave the Form State's Value as it was — the
handler clears it to `null`. -/
theorem c3_counterexample :
    (handleParseJson ⟨"\x7binvalid", some (JSVal.num 1 0), none⟩).formData = none ∧
    (⟨"\x7binvalid", some (JSVal.num 1 0), none⟩ : FormState).formData =
      some (JSVal.num 1 0) ∧
    (handleParseJson ⟨"\x7binvalid", some (JSVal.num 1 0), none⟩).formData ≠
      (⟨"\x7binvalid", some (JSVal.num 1 0), none⟩ : FormState).formData :=
  ⟨rfl, rfl, fun h => Option.noConfusion h⟩

/-- Claim C3 (amended): on every failed parse the error banner is set to
the fixed prefix plus the underlying parser's diagnostic, and the Form
State's Value is cleared to absent — any previously parsed tree is
discarded, not preserved. -/
theorem c3_parse_failure_reports_and_clears (st : FormState) (m : String)
    (h : parseJSONText st.jsonString = .error m) :
    handleParseJson st =
      { st with error := some ("Invalid JSON: " ++ m), formData := none } := by
  unfold handleParseJson
  rw [h]

/-- Witness for the amended C3 at a concrete bad input. -/
theorem c3_witness :
    parseJSONText "\x7binvalid" = .error "Expected property name in JSON object" ∧
    handleParseJson ⟨"\x7binvalid", some (JSVal.num 2 0), none⟩ =
      ⟨"\x7binvalid", none,
        some ("Invalid JSON: " ++ "Expected property name in JSON object")⟩ :=
  ⟨rfl,
    c3_parse_failure_reports_and_clears ⟨"\x7binvalid", some (JSVal.num 2 0), none⟩
      "Expected property name in JSON object" rfl⟩

/-- Claim C8: the renderer's dispatch, stated as the complete equation
set of `renderForm`.  Each shape selects exactly one presentation
(string, number and boolean leaf controls carrying their value; the
others cannot match once one does); `null` and `undefined` — the only
modelled values that are none of the five shapes — render the
`unsupported` placeholder, a constructor carrying no value and no edit
callback; sequences recurse into elements at `path[index]` and mappings
into bindings at `path.key`; the top-level render starts at token
`root`. -/
theorem c8_dispatch :
    (∀ p s, renderForm (JSVal.str s) p = .textField p s) ∧
    (∀ p m e, renderForm (JSVal.num m e) p = .numberField p m e) ∧
    (∀ p b, renderForm (JSVal.bool b) p = .checkbox p b) ∧
    (∀ p, renderForm JSVal.null p = .unsupported p) ∧
    (∀ p, renderForm JSVal.undef p = .unsupported p) ∧
    (∀ p elems props,
      renderForm (JSVal.arr elems props) p = .listGroup p (renderItems elems 0 p)) ∧
    (∀ v rest i p, renderItems (v :: rest) i p =
      renderForm v (p ++ "[" ++ natToString i ++ "]") :: renderItems rest (i + 1) p) ∧
    (∀ p fields, renderForm (JSVal.obj fields) p = .accordion p (renderKeys fields p)) ∧
    (∀ k v rest p, renderKeys ((k, v) :: rest) p =
      renderForm v (p ++ "." ++ k) :: renderKeys rest p) ∧
    (∀ v, topRender v = renderForm v "root") :=
  ⟨fun _ _ => rfl, fun _ _ _ => rfl, fun _ _ => rfl, fun _ => rfl, fun _ => rfl,
    fun _ _ _ => rfl, fun _ _ _ _ => rfl, fun _ _ => rfl, fun _ _ _ _ => rfl,
    fun _ => rfl⟩

/-- Claim C10: a falsy scalar Value — the number `0`, `false` or the
empty string, each a valid JSON document the parser accepts — makes the
edit handler a no-op for every path and new value, makes the JSON-output
action emit nothing, and hides the form: the `if (formData)` and
`formData && ...` guards treat such a tree exactly like an absent one. -/
theorem c10_falsy_guards (d : JSVal)
    (h : d = JSVal.num 0 0 ∨ d = JSVal.bool false ∨ d = JSVal.str "") :
    (parseJSONText "0" = .ok (JSVal.num 0 0) ∧
      parseJSONText "false" = .ok (JSVal.bool false) ∧
      parseJSONText "\"\"" = .ok (JSVal.str "")) ∧
    (∀ (js : String) (er : Option String) (v : JSVal) (p : String),
      handleFormChange ⟨js, some d, er⟩ v p = ⟨js, some d, er⟩) ∧
    (∀ (js : String) (er : Option String), handleJsonOutput ⟨js, some d, er⟩ = none) ∧
    (∀ (js : String) (er : Option String), showsForm ⟨js, some d, er⟩ = false) := by
  have ht : truthyData (some d) = false := by
    rcases h with rfl | rfl | rfl <;> simp [truthyData]
  refine ⟨⟨rfl, rfl, rfl⟩, ?_, ?_, ?_⟩
  · intro js er v p
    simp [handleFormChange, ht]
  · intro js er
    simp [handleJsonOutput, ht]
  · intro js er
    simp [showsForm, ht]

/-- Witness for C10 at the Value `0` and concrete state fields. -/
theorem c10_witness :
    parseJSONText "0" = .ok (JSVal.num 0 0) ∧
    handleFormChange ⟨"0", some (JSVal.num 0 0), none⟩ (JSVal.bool true) "root" =
      ⟨"0", some (JSVal.num 0 0), none⟩ ∧
    handleJsonOutput ⟨"0", some (JSVal.num 0 0), none⟩ = none ∧
    showsForm ⟨"0", some (JSVal.num 0 0), none⟩ = false :=
  ⟨(c10_falsy_guards (JSVal.num 0 0) (Or.inl rfl)).1.1,
    (c10_falsy_guards (JSVal.num 0 0) (Or.inl rfl)).2.1 "0" none (JSVal.bool true) "root",
    (c10_falsy_guards (JSVal.num 0 0) (Or.inl rfl)).2.2.1 "0" none,
    (c10_falsy_guards (JSVal.num 0 0) (Or.inl rfl)).2.2.2 "0" none⟩

/-- String concatenation concatenates the character lists. -/
theorem toList_strApp (s t : String) : (s ++ t).toList = s.toList ++ t.toList := rfl

/-- A run of zero digits reads as zero. -/
theorem digitsToNat_replicate_zero : ∀ k : Nat, digitsToNat (List.replicate k '0') = 0 := by
  intro k
  induction k with
  | zero => rfl
  | succ k ih =>
    rw [List.replicate_succ]
    have h : digitsToNat ('0' :: List.replicate k '0') =
        List.foldl (fun a c => 10 * a + digitVal c) (10 * 0 + digitVal '0')
          (List.replicate k '0') := rfl
    have h0 : 10 * 0 + digitVal '0' = 0 := by decide
    rw [h, h0]
    exact ih

/-- The longest digit prefix of a digit block followed by a non-digit
continuation is the block itself, and dropping its length leaves the
continuation. -/
theorem takeWhile_digits_append (a rest : List Char) (ha : ∀ c ∈ a, c.isDigit = true)
    (hr : ∀ c r, rest = c :: r → c.isDigit = false) :
    (a ++ rest).takeWhile Char.isDigit = a ∧ (a ++ rest).drop a.length = rest := by
  constructor
  · induction a with
    | nil =>
      cases rest with
      | nil => rfl
      | cons c r =>
        simp only [List.nil_append, List.takeWhile_cons, hr c r rfl]
        simp
    | cons c cs ih =>
      have hc : c.isDigit = true := ha c (by simp)
      have ih2 := ih (fun x hx => ha x (by simp [hx]))
      simp [List.takeWhile_cons, hc, ih2]
  · exact List.drop_left a rest

/-- A safe continuation never starts with a character that could extend
a number token. -/
theorem restOk_head (rest : List Char) (h : restOk rest) :
    ∀ c r, rest = c :: r → c.isDigit = false ∧ c ≠ '.' ∧ c ≠ 'e' ∧ c ≠ 'E' := by
  intro c r hr
  subst hr
  have h2 : c = ',' ∨ c = '\n' := h
  rcases h2 with h2 | h2 <;> subst h2 <;>
    exact ⟨by decide, by decide, by decide, by decide⟩

/-- The canonicalisation worker ignores surplus fuel. -/
theorem canonNumAux_congr :
    ∀ (f1 f2 : Nat) (m e : Int), m.natAbs < f1 → m.natAbs < f2 →
      canonNumAux f1 m e = canonNumAux f2 m e := by
  intro f1
  induction f1 with
  | zero => intro f2 m e h1 _; omega
  | succ f1 ih =>
    intro f2 m e h1 h2
    cases f2 with
    | zero => omega
    | succ f2 =>
      simp only [canonNumAux]
      by_cases hm : m = 0
      · simp [hm]
      · simp only [if_neg hm]
        by_cases h10 : m % 10 = 0
        · simp only [if_pos h10]
          obtain ⟨k, hk⟩ := Int.dvd_of_emod_eq_zero h10
          have hk0 : k ≠ 0 := by rintro rfl; exact hm (by omega)
          have hdiv : m / 10 = k := by
            rw [hk]; exact Int.mul_ediv_cancel_left _ (by norm_num)
          have hma : m.natAbs = 10 * k.natAbs := by
            rw [hk, Int.natAbs_mul]; norm_num
          have hkne : k.natAbs ≠ 0 := Int.natAbs_ne_zero.mpr hk0
          exact ih f2 (m / 10) (e + 1) (by rw [hdiv]; omega) (by rw [hdiv]; omega)
        · simp [h10]

/-- A canonical pair is its own canonical form. -/
theorem canonNum_self (m e : Int) (hm : m ≠ 0) (h10 : m % 10 ≠ 0) :
    canonNum m e = (m, e) := by
  unfold canonNum
  simp only [canonNumAux, if_neg hm, if_neg h10]

/-- Canonicalising after multiplying a canonical mantissa by a power of
ten moves the power into the exponent. -/
theorem canonNum_mul_pow (m e : Int) (k : Nat) (hm : m ≠ 0) (h10 : m % 10 ≠ 0) :
    canonNum (m * 10 ^ k) e = (m, e + k) := by
  induction k generalizing e with
  | zero => simpa using canonNum_self m e hm h10
  | succ k ih =>
    have hpow : (10 : Int) ^ k ≠ 0 := by positivity
    have hmk : m * 10 ^ k ≠ 0 := mul_ne_zero hm hpow
    have hfac : m * 10 ^ (k + 1) = 10 * (m * 10 ^ k) := by ring
    have hmod : (m * 10 ^ (k + 1)) % 10 = 0 := by
      rw [hfac]; exact Int.mul_emod_right 10 _
    have hne : m * 10 ^ (k + 1) ≠ 0 := by
      rw [hfac]; exact mul_ne_zero (by norm_num) hmk
    have hdiv : m * 10 ^ (k + 1) / 10 = m * 10 ^ k := by
      rw [hfac]; exact Int.mul_ediv_cancel_left _ (by norm_num)
    have habs : (m * 10 ^ (k + 1)).natAbs = 10 * (m * 10 ^ k).natAbs := by
      rw [hfac, Int.natAbs_mul]; norm_num
    have hpos : (m * 10 ^ k).natAbs ≠ 0 := Int.natAbs_ne_zero.mpr hmk
    unfold canonNum
    have hstep : canonNumAux ((m * 10 ^ (k + 1)).natAbs + 1) (m * 10 ^ (k + 1)) e =
        canonNumAux ((m * 10 ^ (k + 1)).natAbs) (m * 10 ^ (k + 1) / 10) (e + 1) := by
      simp only [canonNumAux, if_neg hne, if_pos hmod]
    rw [hstep, hdiv,
      canonNumAux_congr ((m * 10 ^ (k + 1)).natAbs) ((m * 10 ^ k).natAbs + 1)
        (m * 10 ^ k) (e + 1) (by omega) (by omega)]
    have hih := ih (e + 1)
    unfold canonNum at hih
    rw [hih]
    congr 1
    push_cast
    ring

/-- Reading back a signed integer literal (a digit block with no leading
zero) followed by a safe continuation. -/
theorem parseNumberJSON_int (neg : Bool) (c0 : Char) (ids rest : List Char)
    (hdig : ∀ c ∈ c0 :: ids, c.isDigit = true)
    (h0 : c0 = '0' → ids = [])
    (hrest : restOk rest) :
    parseNumberJSON ((if neg then ['-'] else []) ++ c0 :: (ids ++ rest)) =
      .ok (canonNum ((if neg then -1 else 1) * (digitsToNat (c0 :: ids) : Int)) 0, rest) := by
  have hc0 : c0.isDigit = true := hdig c0 (by simp)
  have hc0m : ¬(c0 = '-') := (isDigit_not_sign c0 hc0).1
  rcases rest with _ | ⟨cr, rr⟩
  · have htw : (c0 :: ids).takeWhile Char.isDigit = c0 :: ids :=
      List.takeWhile_eq_self_iff.mpr hdig
    by_cases hz : c0 = '0'
    · subst hz
      have hids := h0 rfl
      subst hids
      cases neg <;> rfl
    · cases neg <;>
        simp [parseNumberJSON, hc0m, htw, hz, hc0]
  · have h2 : cr = ',' ∨ cr = '\n' := hrest
    obtain ⟨hcd, hcdot, hce, hcE⟩ := restOk_head (cr :: rr) hrest cr rr rfl
    have hta := takeWhile_digits_append (c0 :: ids) (cr :: rr) hdig
      (fun c r hr => by injection hr with h1 _; subst h1; exact hcd)
    have htw : (c0 :: (ids ++ cr :: rr)).takeWhile Char.isDigit = c0 :: ids := by
      simpa using hta.1
    have hdr : (ids ++ cr :: rr).drop ids.length = cr :: rr := List.drop_left ids (cr :: rr)
    by_cases hz : c0 = '0'
    · subst hz
      have hids := h0 rfl
      subst hids
      rcases h2 with rfl | rfl <;> cases neg <;> rfl
    · cases neg <;>
        simp [parseNumberJSON, hc0m, htw, hdr, hz, hcd, hcdot, hce, hcE, hc0]

/-- Reading back a signed decimal literal with a fractional part,
followed by a safe continuation. -/
theorem parseNumberJSON_frac (neg : Bool) (c0 : Char) (ids fds rest : List Char)
    (hdig : ∀ c ∈ c0 :: ids, c.isDigit = true)
    (hfdig : ∀ c ∈ fds, c.isDigit = true)
    (h0 : c0 = '0' → ids = [])
    (hf : fds ≠ [])
    (hrest : restOk rest) :
    parseNumberJSON ((if neg then ['-'] else []) ++ c0 :: (ids ++ '.' :: (fds ++ rest))) =
      .ok (canonNum ((if neg then -1 else 1) * (digitsToNat ((c0 :: ids) ++ fds) : Int))
            (-(fds.length : Int)), rest) := by
  have hc0 : c0.isDigit = true := hdig c0 (by simp)
  have hc0m : ¬(c0 = '-') := (isDigit_not_sign c0 hc0).1
  have hids : ∀ c ∈ ids, c.isDigit = true := fun c hc => hdig c (by simp [hc])
  rcases fds with _ | ⟨f0, ftl⟩
  · exact absurd rfl hf
  have hf0 : f0.isDigit = true := hfdig f0 (by simp)
  rcases rest with _ | ⟨cr, rr⟩
  · have hta := takeWhile_digits_append ids ('.' :: f0 :: ftl) hids
      (fun c r hr => by injection hr with h1 _; subst h1; decide)
    have htwX : (ids ++ '.' :: f0 :: ftl).takeWhile Char.isDigit = ids := hta.1
    have hdrX : (ids ++ '.' :: f0 :: ftl).drop ids.length = '.' :: f0 :: ftl := hta.2
    have htw : (c0 :: (ids ++ '.' :: f0 :: ftl)).takeWhile Char.isDigit = c0 :: ids := by
      simp [List.takeWhile_cons, hc0, htwX]
    have htw2 : (f0 :: ftl).takeWhile Char.isDigit = f0 :: ftl :=
      List.takeWhile_eq_self_iff.mpr hfdig
    have hdr2 : List.drop ftl.length ftl = [] := by simp
    by_cases hz : c0 = '0'
    · subst hz
      have hids2 := h0 rfl
      subst hids2
      cases neg <;>
        simp [parseNumberJSON, htw, htwX, hdrX, htw2, hdr2, hf0]
    · cases neg <;>
        simp [parseNumberJSON, hc0m, htw, htwX, hdrX, htw2, hdr2, hz, hc0, hf0]
  · have h2 : cr = ',' ∨ cr = '\n' := hrest
    obtain ⟨hcd, hcdot, hce, hcE⟩ := restOk_head (cr :: rr) hrest cr rr rfl
    have hta := takeWhile_digits_append ids ('.' :: f0 :: (ftl ++ cr :: rr)) hids
      (fun c r hr => by injection hr with h1 _; subst h1; decide)
    have htwX : (ids ++ '.' :: f0 :: (ftl ++ cr :: rr)).takeWhile Char.isDigit = ids := hta.1
    have hdrX : (ids ++ '.' :: f0 :: (ftl ++ cr :: rr)).drop ids.length =
        '.' :: f0 :: (ftl ++ cr :: rr) := hta.2
    have htw : (c0 :: (ids ++ '.' :: f0 :: (ftl ++ cr :: rr))).takeWhile Char.isDigit =
        c0 :: ids := by
      simp [List.takeWhile_cons, hc0, htwX]
    have hta2 := takeWhile_digits_append (f0 :: ftl) (cr :: rr) hfdig
      (fun c r hr => by injection hr with h1 _; subst h1; exact hcd)
    have htw2 : (f0 :: (ftl ++ cr :: rr)).takeWhile Char.isDigit = f0 :: ftl := by
      simpa using hta2.1
    have hdr2 : (ftl ++ cr :: rr).drop ftl.length = cr :: rr := List.drop_left ftl _
    by_cases hz : c0 = '0'
    · subst hz
      have hids2 := h0 rfl
      subst hids2
      cases neg <;>
        simp [parseNumberJSON, htw, htwX, hdrX, htw2, hdr2, hf0, hcd, hcdot, hce, hcE]
    · cases neg <;>
        simp [parseNumberJSON, hc0m, htw, htwX, hdrX, htw2, hdr2, hz, hc0, hf0,
          hcd, hcdot, hce, hcE]

/-- Unfolding the character list of a packed string. -/
theorem toList_mk (l : List Char) : (String.mk l).toList = l := rfl

/-- The first character of a printed number is a digit or the minus
sign. -/
theorem numToString_shape (m e : Int) :
    ∃ c t, (numToString m e).toList = c :: t ∧ (c.isDigit = true ∨ c = '-') := by
  by_cases hm0 : m = 0
  · exact ⟨'0', [], by simp [numToString, hm0], Or.inl (by decide)⟩
  rcases hds2 : natToDigits m.natAbs with _ | ⟨c0, ds1⟩
  · exact absurd hds2 (natToDigits_ne_nil _)
  have hc0 : c0.isDigit = true :=
    natToDigits_all_digits m.natAbs c0 (by rw [hds2]; simp)
  by_cases hneg : m < 0
  · refine ⟨'-',
      (if 0 ≤ e then natToDigits m.natAbs ++ List.replicate e.toNat '0'
       else if (-e).toNat < (natToDigits m.natAbs).length then
         (natToDigits m.natAbs).take ((natToDigits m.natAbs).length - (-e).toNat) ++
           '.' :: (natToDigits m.natAbs).drop ((natToDigits m.natAbs).length - (-e).toNat)
       else '0' :: '.' :: (List.replicate ((-e).toNat - (natToDigits m.natAbs).length) '0' ++
         natToDigits m.natAbs)), ?_, Or.inr rfl⟩
    simp only [numToString, if_neg hm0, if_pos hneg]
    rfl
  by_cases he : 0 ≤ e
  · refine ⟨c0, ds1 ++ List.replicate e.toNat '0', ?_, Or.inl hc0⟩
    simp [numToString, hm0, hneg, he, hds2, toList_mk]
  by_cases hk : (-e).toNat < (natToDigits m.natAbs).length
  · obtain ⟨j, hj⟩ : ∃ j, (natToDigits m.natAbs).length - (-e).toNat = j + 1 :=
      ⟨(natToDigits m.natAbs).length - (-e).toNat - 1, by omega⟩
    refine ⟨c0, ds1.take j ++ '.' :: (c0 :: ds1).drop (j + 1), ?_, Or.inl hc0⟩
    simp only [numToString, if_neg hm0, if_neg he, if_neg hneg, if_pos hk]
    rw [hj, hds2, List.take_succ_cons]
    rfl
  · refine ⟨'0', '.' :: (List.replicate ((-e).toNat - (natToDigits m.natAbs).length) '0' ++
      natToDigits m.natAbs), ?_, Or.inl (by decide)⟩
    simp only [numToString, if_neg hm0, if_neg he, if_neg hneg, if_neg hk]
    rfl

/-- Reading back the positional printing of a canonical number followed
by a safe continuation. -/
theorem parseNumberJSON_roundtrip (m e : Int) (rest : List Char)
    (hwf : (m = 0 ∧ e = 0) ∨ (m ≠ 0 ∧ m % 10 ≠ 0))
    (hrest : restOk rest) :
    parseNumberJSON ((numToString m e).toList ++ rest) = .ok ((m, e), rest) := by
  rcases hwf with ⟨rfl, rfl⟩ | ⟨hm0, h10⟩
  · have hns : (numToString (0 : Int) (0 : Int)).toList = ['0'] := rfl
    rw [hns]
    have h := parseNumberJSON_int false '0' [] rest (by simp) (fun _ => rfl) hrest
    have hval : canonNum ((if (false : Bool) then -1 else 1) *
        (digitsToNat ['0'] : Int)) 0 = ((0 : Int), (0 : Int)) := by decide
    rw [hval] at h
    simpa using h
  rcases hds2 : natToDigits m.natAbs with _ | ⟨c0, ds1⟩
  · exact absurd hds2 (natToDigits_ne_nil _)
  have hdigall : ∀ c ∈ c0 :: ds1, c.isDigit = true := by
    rw [← hds2]; exact natToDigits_all_digits m.natAbs
  have hmabs : m.natAbs ≠ 0 := Int.natAbs_ne_zero.mpr hm0
  have hc0 : c0 ≠ '0' := natToDigits_head_pos m.natAbs hmabs c0 ds1 hds2
  have hval : digitsToNat (c0 :: ds1) = m.natAbs := by
    rw [← hds2]; exact digitsToNat_natToDigits _
  by_cases he : 0 ≤ e
  · have hdig2 : ∀ c ∈ c0 :: (ds1 ++ List.replicate e.toNat '0'), c.isDigit = true := by
      intro c hc
      simp only [List.mem_cons, List.mem_append, List.mem_replicate] at hc
      rcases hc with rfl | hc | ⟨_, rfl⟩
      · exact hdigall _ (by simp)
      · exact hdigall c (by simp [hc])
      · decide
    have hdz : (digitsToNat (c0 :: (ds1 ++ List.replicate e.toNat '0')) : Int) =
        (m.natAbs : Int) * 10 ^ e.toNat := by
      have h1 : (c0 :: (ds1 ++ List.replicate e.toNat '0')) =
          (c0 :: ds1) ++ List.replicate e.toNat '0' := by simp
      rw [h1, digitsToNat_append, hval, digitsToNat_replicate_zero, List.length_replicate]
      push_cast
      ring
    have hexp : (0 : Int) + (e.toNat : Int) = e := by omega
    by_cases hneg : m < 0
    · have hcast : (m.natAbs : Int) = -m := by omega
      have hst : (numToString m e).toList ++ rest =
          (if (true : Bool) then ['-'] else []) ++
            c0 :: ((ds1 ++ List.replicate e.toNat '0') ++ rest) := by
        simp [numToString, hm0, he, hneg, hds2, toList_mk]
      rw [hst, parseNumberJSON_int true c0 (ds1 ++ List.replicate e.toNat '0') rest hdig2
        (fun hh => absurd hh hc0) hrest]
      have hm2 : ((if (true : Bool) then (-1 : Int) else 1)) *
          (digitsToNat (c0 :: (ds1 ++ List.replicate e.toNat '0')) : Int) =
          m * 10 ^ e.toNat := by
        rw [hdz, hcast, if_pos rfl]
        ring
      rw [hm2, canonNum_mul_pow m 0 e.toNat hm0 h10, hexp]
    · have hcast : (m.natAbs : Int) = m := by omega
      have hst : (numToString m e).toList ++ rest =
          (if (false : Bool) then ['-'] else []) ++
            c0 :: ((ds1 ++ List.replicate e.toNat '0') ++ rest) := by
        simp [numToString, hm0, he, hneg, hds2, toList_mk]
      rw [hst, parseNumberJSON_int false c0 (ds1 ++ List.replicate e.toNat '0') rest hdig2
        (fun hh => absurd hh hc0) hrest]
      have hm2 : ((if (false : Bool) then (-1 : Int) else 1)) *
          (digitsToNat (c0 :: (ds1 ++ List.replicate e.toNat '0')) : Int) =
          m * 10 ^ e.toNat := by
        rw [hdz, hcast, if_neg Bool.false_ne_true]
        ring
      rw [hm2, canonNum_mul_pow m 0 e.toNat hm0 h10, hexp]
  · have hepos : 0 < (-e).toNat := by omega
    by_cases hk : (-e).toNat < (natToDigits m.natAbs).length
    · have hkl : (-e).toNat < ds1.length + 1 := by
        rw [hds2] at hk
        simpa using hk
      obtain ⟨j, hj⟩ : ∃ j, ds1.length + 1 - (-e).toNat = j + 1 :=
        ⟨ds1.length + 1 - (-e).toNat - 1, by omega⟩
      have hld : (ds1.drop j).length = (-e).toNat := by
        simp only [List.length_drop]
        omega
      have hfne : ds1.drop j ≠ [] := by
        intro hcon
        rw [hcon] at hld
        simp at hld
        omega
      have hdig2 : ∀ c ∈ c0 :: ds1.take j, c.isDigit = true := by
        intro c hc
        simp only [List.mem_cons] at hc
        rcases hc with rfl | hc
        · exact hdigall _ (by simp)
        · exact hdigall c (List.mem_cons_of_mem c0 (List.take_subset j ds1 hc))
      have hfdig : ∀ c ∈ ds1.drop j, c.isDigit = true :=
        fun c hc => hdigall c (List.mem_cons_of_mem c0 (List.drop_subset j ds1 hc))
      have hdz : (digitsToNat ((c0 :: ds1.take j) ++ ds1.drop j) : Int) = (m.natAbs : Int) := by
        have h1 : (c0 :: ds1.take j) ++ ds1.drop j = c0 :: ds1 := by
          simp [List.take_append_drop]
        rw [h1, hval]
      have hexp : -(((ds1.drop j).length : Int)) = e := by
        rw [hld]
        omega
      by_cases hneg : m < 0
      · have hcast : (m.natAbs : Int) = -m := by omega
        have hst : (numToString m e).toList ++ rest =
            (if (true : Bool) then ['-'] else []) ++
              c0 :: (ds1.take j ++ '.' :: (ds1.drop j ++ rest)) := by
          simp only [numToString, if_neg hm0, if_neg he, if_pos hk, if_pos hneg, hds2,
            List.length_cons, hj, List.take_succ_cons, List.drop_succ_cons, hkl, toList_mk]
          simp
        rw [hst, parseNumberJSON_frac true c0 (ds1.take j) (ds1.drop j) rest hdig2 hfdig
          (fun hh => absurd hh hc0) hfne hrest]
        have hm2 : ((if (true : Bool) then (-1 : Int) else 1)) *
            (digitsToNat ((c0 :: ds1.take j) ++ ds1.drop j) : Int) = m := by
          rw [hdz, hcast, if_pos rfl]
          ring
        rw [hm2, hexp, canonNum_self m e hm0 h10]
      · have hcast : (m.natAbs : Int) = m := by omega
        have hst : (numToString m e).toList ++ rest =
            (if (false : Bool) then ['-'] else []) ++
              c0 :: (ds1.take j ++ '.' :: (ds1.drop j ++ rest)) := by
          simp only [numToString, if_neg hm0, if_neg he, if_pos hk, if_neg hneg, hds2,
            List.length_cons, hj, List.take_succ_cons, List.drop_succ_cons, hkl, toList_mk]
          simp
        rw [hst, parseNumberJSON_frac false c0 (ds1.take j) (ds1.drop j) rest hdig2 hfdig
          (fun hh => absurd hh hc0) hfne hrest]
        have hm2 : ((if (false : Bool) then (-1 : Int) else 1)) *
            (digitsToNat ((c0 :: ds1.take j) ++ ds1.drop j) : Int) = m := by
          rw [hdz, hcast, if_neg Bool.false_ne_true]
          ring
        rw [hm2, hexp, canonNum_self m e hm0 h10]
    · have hkl : ds1.length + 1 ≤ (-e).toNat := by
        rw [hds2] at hk
        simp at hk
        omega
      have hnkl : ¬((-e).toNat < ds1.length + 1) := by omega
      have hfne : List.replicate ((-e).toNat - (ds1.length + 1)) '0' ++ (c0 :: ds1) ≠ [] := by
        simp
      have hfdig : ∀ c ∈ List.replicate ((-e).toNat - (ds1.length + 1)) '0' ++ (c0 :: ds1),
          c.isDigit = true := by
        intro c hc
        simp only [List.mem_append, List.mem_replicate] at hc
        rcases hc with ⟨_, rfl⟩ | hc
        · decide
        · exact hdigall c hc
      have hdz0 : digitsToNat ['0'] = 0 := by decide
      have hexp : -(((List.replicate ((-e).toNat - (ds1.length + 1)) '0' ++
          (c0 :: ds1)).length : Int)) = e := by
        simp only [List.length_append, List.length_replicate, List.length_cons]
        omega
      by_cases hneg : m < 0
      · have hcast : (m.natAbs : Int) = -m := by omega
        have hst : (numToString m e).toList ++ rest =
            (if (true : Bool) then ['-'] else []) ++
              '0' :: (([] : List Char) ++ '.' ::
                ((List.replicate ((-e).toNat - (ds1.length + 1)) '0' ++ (c0 :: ds1)) ++ rest)) := by
          simp only [numToString, if_neg hm0, if_neg he, if_neg hk, if_pos hneg, hds2,
            List.length_cons, hnkl, toList_mk]
          simp
        rw [hst, parseNumberJSON_frac true '0' []
          (List.replicate ((-e).toNat - (ds1.length + 1)) '0' ++ (c0 :: ds1)) rest
          (by simp) hfdig (fun _ => rfl) hfne hrest]
        have hm2 : ((if (true : Bool) then (-1 : Int) else 1)) *
            (digitsToNat (('0' :: ([] : List Char)) ++
              (List.replicate ((-e).toNat - (ds1.length + 1)) '0' ++ (c0 :: ds1))) : Int) = m := by
          rw [digitsToNat_append, digitsToNat_append, digitsToNat_replicate_zero, hval, hdz0,
            if_pos rfl]
          simp only [zero_mul, zero_add]
          rw [hcast]
          ring
        rw [hm2, hexp, canonNum_self m e hm0 h10]
      · have hcast : (m.natAbs : Int) = m := by omega
        have hst : (numToString m e).toList ++ rest =
            (if (false : Bool) then ['-'] else []) ++
              '0' :: (([] : List Char) ++ '.' ::
                ((List.replicate ((-e).toNat - (ds1.length + 1)) '0' ++ (c0 :: ds1)) ++ rest)) := by
          simp only [numToString, if_neg hm0, if_neg he, if_neg hk, if_neg hneg, hds2,
            List.length_cons, hnkl, toList_mk]
          simp
        rw [hst, parseNumberJSON_frac false '0' []
          (List.replicate ((-e).toNat - (ds1.length + 1)) '0' ++ (c0 :: ds1)) rest
          (by simp) hfdig (fun _ => rfl) hfne hrest]
        have hm2 : ((if (false : Bool) then (-1 : Int) else 1)) *
            (digitsToNat (('0' :: ([] : List Char)) ++
              (List.replicate ((-e).toNat - (ds1.length + 1)) '0' ++ (c0 :: ds1))) : Int) = m := by
          rw [digitsToNat_append, digitsToNat_append, digitsToNat_replicate_zero, hval, hdz0,
            if_neg Bool.false_ne_true]
          simp only [zero_mul, zero_add]
          rw [hcast]
          ring
        rw [hm2, hexp, canonNum_self m e hm0 h10]

/-- Dispatch classes of the first character of a printed number. -/
theorem num_head_classes (c : Char) (h : c.isDigit = true ∨ c = '-') :
    isJsWhitespace c = false ∧ ¬(c = '"') ∧ ¬(c = lbrace) ∧ ¬(c = '[') ∧ ¬(c = 't') ∧
      ¬(c = 'f') ∧ ¬(c = 'n') ∧ (c = '-' ∨ c.isDigit = true) := by
  rcases h with h | rfl
  · obtain ⟨h1, h2, h3, h4, h5, h6, -, -, -, -, -, -, -⟩ := digit_char_classes c h
    exact ⟨isDigit_not_ws c h, h1, h2, h3, h4, h5, h6, Or.inr h⟩
  · exact ⟨by decide, by decide, by decide, by decide, by decide, by decide, by decide,
      Or.inl rfl⟩

/-- The first character of any printed value is not whitespace and not a
closing bracket. -/
theorem stringify_head_spec (v : JSVal) (ind : Nat) :
    ∃ c, (stringifyVal v ind).toList.head? = some c ∧ isJsWhitespace c = false ∧
      ¬(c = ']') ∧ ¬(c = rbrace) := by
  cases v with
  | str s =>
    refine ⟨'"', ?_, by decide, by decide, by decide⟩
    simp only [stringifyVal]
    rfl
  | num m e =>
    obtain ⟨c, t, h1, h2⟩ := numToString_shape m e
    refine ⟨c, ?_, ?_, ?_, ?_⟩
    · simp only [stringifyVal]
      rw [h1]
      rfl
    · rcases h2 with h2 | rfl
      · exact isDigit_not_ws c h2
      · decide
    · rcases h2 with h2 | rfl
      · obtain ⟨-, -, -, -, -, -, -, -, -, -, hbr, -, -⟩ := digit_char_classes c h2
        exact hbr
      · decide
    · rcases h2 with h2 | rfl
      · obtain ⟨-, -, -, -, -, -, -, -, -, -, -, hrb, -⟩ := digit_char_classes c h2
        exact hrb
      · decide
  | bool b =>
    cases b
    · exact ⟨'f', by simp only [stringifyVal]; rfl, by decide, by decide, by decide⟩
    · exact ⟨'t', by simp only [stringifyVal]; rfl, by decide, by decide, by decide⟩
  | null => exact ⟨'n', by simp only [stringifyVal]; rfl, by decide, by decide, by decide⟩
  | undef => exact ⟨'n', by simp only [stringifyVal]; rfl, by decide, by decide, by decide⟩
  | arr es props =>
    cases es with
    | nil => exact ⟨'[', by simp only [stringifyVal]; rfl, by decide, by decide, by decide⟩
    | cons v vs =>
      refine ⟨'[', ?_, by decide, by decide, by decide⟩
      simp only [stringifyVal]
      rfl
  | obj fields =>
    refine ⟨lbrace, ?_, by decide, by decide, by decide⟩
    simp only [stringifyVal]
    split
    · rfl
    · rfl

/-- Every printed value occupies at least one character. -/
theorem stringifyVal_length_pos (v : JSVal) (ind : Nat) :
    1 ≤ (stringifyVal v ind).toList.length := by
  obtain ⟨c, hc, -, -, -⟩ := stringify_head_spec v ind
  rcases hl : (stringifyVal v ind).toList with _ | ⟨a, t⟩
  · rw [hl] at hc
    exact absurd hc (by simp)
  · simp

/-- A printed element list is at least as long as the element count. -/
theorem joinElems_len_count (ind : Nat) :
    ∀ l : List JSVal, l.length ≤ (joinElems l ind).toList.length := by
  intro l
  induction l with
  | nil => simp [joinElems]
  | cons v vs ih =>
    cases vs with
    | nil =>
      have hp := stringifyVal_length_pos v ind
      simp only [joinElems, toList_strApp, List.length_append, List.length_cons,
        List.length_nil]
      omega
    | cons w ws =>
      have hp := stringifyVal_length_pos v ind
      simp only [joinElems, toList_strApp, List.length_append, List.length_cons] at ih ⊢
      omega

/-- A printed member list is at least as long as the member count. -/
theorem joinFields_len_count (ind : Nat) :
    ∀ l : List (String × JSVal), l.length ≤ (joinFields l ind).toList.length := by
  intro l
  induction l with
  | nil => simp [joinFields]
  | cons kv fs ih =>
    obtain ⟨k, v⟩ := kv
    have hq : 1 ≤ (quoteString k).toList.length := by
      simp [quoteString, toList_mk]
    cases fs with
    | nil =>
      simp only [joinFields, toList_strApp, List.length_append, List.length_cons,
        List.length_nil]
      omega
    | cons kv2 gs =>
      simp only [joinFields, toList_strApp, List.length_append, List.length_cons] at ih ⊢
      omega

/-- A well-formed value is not the `undefined` marker. -/
theorem wfJson_not_undef (v : JSVal) (h : wfJson v = true) : jsIsUndef v = false := by
  cases v
  case undef => simp [wfJson] at h
  all_goals rfl

/-- Printing keeps every member of a well-formed field list. -/
theorem wf_filter_kept (fs : List (String × JSVal)) (h : wfJsonFields fs = true) :
    fs.filter (fun kv => !(jsIsUndef kv.2)) = fs := by
  induction fs with
  | nil => rfl
  | cons kv rest ih =>
    obtain ⟨k, v⟩ := kv
    simp only [wfJsonFields, Bool.and_eq_true] at h
    have hu : jsIsUndef v = false := wfJson_not_undef v h.1
    rw [List.filter_cons]
    simp [hu, ih h.2]

/-- A list element is strictly smaller than the list size. -/
theorem jsize_lt_list (v : JSVal) : ∀ es : List JSVal, v ∈ es → jsize v < jsizeList es := by
  intro es
  induction es with
  | nil => intro h; simp at h
  | cons w ws ih =>
    intro h
    rcases List.mem_cons.mp h with rfl | h2
    · simp only [jsizeList]
      omega
    · have := ih h2
      simp only [jsizeList]
      omega

/-- A field value is strictly smaller than the field-list size. -/
theorem jsize_lt_fields :
    ∀ (fs : List (String × JSVal)) (kv : String × JSVal), kv ∈ fs →
      jsize kv.2 < jsizeFields fs := by
  intro fs
  induction fs with
  | nil => intro kv h; simp at h
  | cons p ps ih =>
    obtain ⟨k1, v1⟩ := p
    intro kv h
    rcases List.mem_cons.mp h with rfl | h2
    · simp only [jsizeFields]
      omega
    · have := ih kv h2
      simp only [jsizeFields]
      omega

/-- The value parser ignores a whitespace prefix. -/
theorem parseValue_dropWs (f : Nat) (ws s : List Char)
    (h : ∀ c ∈ ws, isJsWhitespace c = true) :
    parseValue f (ws ++ s) = parseValue f s := by
  rw [parseValue_skipWs, skipWs_append_ws ws s h, ← parseValue_skipWs]

/-- The array-element loop ignores a whitespace prefix of its input. -/
theorem parseElemsWith_dropWs (f efuel : Nat) (ws s : List Char) (acc : List JSVal)
    (h : ∀ c ∈ ws, isJsWhitespace c = true) :
    parseElemsWith (parseValue f) efuel (ws ++ s) acc =
      parseElemsWith (parseValue f) efuel s acc := by
  cases efuel with
  | zero => rfl
  | succ ef => simp only [parseElemsWith, parseValue_dropWs f ws s h]

/-- The object-member loop ignores a whitespace prefix of its input. -/
theorem parseMembersWith_dropWs (f mfuel : Nat) (ws s : List Char)
    (acc : List (String × JSVal)) (h : ∀ c ∈ ws, isJsWhitespace c = true) :
    parseMembersWith (parseValue f) mfuel (ws ++ s) acc =
      parseMembersWith (parseValue f) mfuel s acc := by
  cases mfuel with
  | zero => rfl
  | succ mf => simp only [parseMembersWith, skipWs_append_ws ws s h]

/-- The array-element loop may first discard leading whitespace. -/
theorem parseElemsWith_skipWs (f efuel : Nat) (s : List Char) (acc : List JSVal) :
    parseElemsWith (parseValue f) efuel s acc =
      parseElemsWith (parseValue f) efuel (skipWs s) acc := by
  have h := parseElemsWith_dropWs f efuel (s.takeWhile isJsWhitespace)
    (s.dropWhile isJsWhitespace) acc (fun c hc => List.mem_takeWhile_imp hc)
  rw [List.takeWhile_append_dropWhile] at h
  exact h

/-- The object-member loop may first discard leading whitespace. -/
theorem parseMembersWith_skipWs (f mfuel : Nat) (s : List Char)
    (acc : List (String × JSVal)) :
    parseMembersWith (parseValue f) mfuel s acc =
      parseMembersWith (parseValue f) mfuel (skipWs s) acc := by
  have h := parseMembersWith_dropWs f mfuel (s.takeWhile isJsWhitespace)
    (s.dropWhile isJsWhitespace) acc (fun c hc => List.mem_takeWhile_imp hc)
  rw [List.takeWhile_append_dropWhile] at h
  exact h

/-- A key absent from the key list of an association list has no
binding. -/
theorem lookupField_none (fs : List (String × JSVal)) (k : String)
    (h : k ∉ fs.map Prod.fst) : lookupField fs k = none := by
  induction fs with
  | nil => rfl
  | cons kv rest ih =>
    obtain ⟨k1, v1⟩ := kv
    simp only [List.map_cons, List.mem_cons] at h
    push_neg at h
    simp only [lookupField]
    rw [if_neg (fun he => h.1 he.symm)]
    exact ih h.2

/-- The element loop reads back a printed non-empty element list and
stops at the closing bracket. -/
theorem parseElems_print (f ind : Nat)
    (IH : ∀ (V : JSVal) (ind2 : Nat) (rest : List Char), wfJson V = true → jsize V < f →
      restOk rest → parseValue f ((stringifyVal V ind2).toList ++ rest) = .ok (V, rest)) :
    ∀ (vs : List JSVal), vs ≠ [] → ∀ (acc : List JSVal) (efuel : Nat) (rest0 : List Char),
      wfJsonList vs = true → (∀ v ∈ vs, jsize v < f) → vs.length ≤ efuel →
      parseElemsWith (parseValue f) efuel
        ((joinElems vs (ind + 2)).toList ++ '\n' :: ((spaces ind).toList ++ ']' :: rest0))
        acc = .ok (.arr (acc ++ vs) [], rest0) := by
  intro vs
  induction vs with
  | nil => intro h; exact absurd rfl h
  | cons v tl ih =>
    intro _ acc efuel rest0 hwf hsz hef
    cases efuel with
    | zero => simp at hef
    | succ ef =>
      simp only [wfJsonList, Bool.and_eq_true] at hwf
      cases tl with
      | nil =>
        have hv := IH v (ind + 2) ('\n' :: ((spaces ind).toList ++ ']' :: rest0))
          hwf.1 (hsz v (by simp)) (Or.inr rfl)
        have hsk : skipWs ('\n' :: ((spaces ind).toList ++ ']' :: rest0)) = ']' :: rest0 := by
          have h1 : ∀ c ∈ '\n' :: (spaces ind).toList, isJsWhitespace c = true := by
            intro c hc
            rcases List.mem_cons.mp hc with rfl | hc
            · decide
            · exact spaces_all_ws ind c hc
          have h2 := skipWs_append_ws ('\n' :: (spaces ind).toList) (']' :: rest0) h1
          have h3 : skipWs (']' :: rest0) = ']' :: rest0 := skipWs_cons_not_ws (by decide) _
          rw [h3] at h2
          simpa using h2
        simp only [joinElems, toList_strApp]
        rw [List.append_assoc]
        simp only [parseElemsWith]
        rw [parseValue_dropWs f ((spaces (ind + 2)).toList)
          ((stringifyVal v (ind + 2)).toList ++
            ('\n' :: ((spaces ind).toList ++ ']' :: rest0))) (spaces_all_ws (ind + 2)), hv]
        have hskd : skipWs ('\n' :: ((spaces ind).data ++ ']' :: rest0)) = ']' :: rest0 := hsk
        simp [hsk, hskd]
      | cons w ws =>
        have hne2 : (w :: ws : List JSVal) ≠ [] := by simp
        have hcomma : (",\n" : String).toList = [',', '\n'] := rfl
        have hv := IH v (ind + 2)
          (',' :: '\n' :: ((joinElems (w :: ws) (ind + 2)).toList ++
            '\n' :: ((spaces ind).toList ++ ']' :: rest0)))
          hwf.1 (hsz v (by simp)) (Or.inl rfl)
        have hih := ih hne2 (acc ++ [v]) ef rest0 hwf.2
          (fun u hu => hsz u (by simp [hu])) (by simp at hef ⊢; omega)
        have hwn : ∀ c ∈ ['\n'], isJsWhitespace c = true := by
          intro c hc
          simp at hc
          subst hc
          decide
        have hw := parseElemsWith_dropWs f ef ['\n']
          ((joinElems (w :: ws) (ind + 2)).toList ++
            '\n' :: ((spaces ind).toList ++ ']' :: rest0)) (acc ++ [v]) hwn
        simp only [List.cons_append, List.nil_append] at hw
        have hskc : skipWs (',' :: '\n' :: ((joinElems (w :: ws) (ind + 2)).toList ++
            '\n' :: ((spaces ind).toList ++ ']' :: rest0))) =
            ',' :: '\n' :: ((joinElems (w :: ws) (ind + 2)).toList ++
            '\n' :: ((spaces ind).toList ++ ']' :: rest0)) :=
          skipWs_cons_not_ws (by decide) _
        simp only [joinElems, toList_strApp, hcomma, List.append_assoc, List.cons_append,
          List.nil_append]
        simp only [parseElemsWith]
        rw [parseValue_dropWs f ((spaces (ind + 2)).toList)
          ((stringifyVal v (ind + 2)).toList ++
            (',' :: '\n' :: ((joinElems (w :: ws) (ind + 2)).toList ++
              '\n' :: ((spaces ind).toList ++ ']' :: rest0)))) (spaces_all_ws (ind + 2)), hv]
        have hskcd : skipWs (',' :: '\n' :: ((joinElems (w :: ws) (ind + 2)).data ++
            '\n' :: ((spaces ind).data ++ ']' :: rest0))) =
            ',' :: '\n' :: ((joinElems (w :: ws) (ind + 2)).data ++
            '\n' :: ((spaces ind).data ++ ']' :: rest0)) := hskc
        have hwd : parseElemsWith (parseValue f) ef
            ('\n' :: ((joinElems (w :: ws) (ind + 2)).data ++
              '\n' :: ((spaces ind).data ++ ']' :: rest0))) (acc ++ [v]) =
            parseElemsWith (parseValue f) ef
            ((joinElems (w :: ws) (ind + 2)).data ++
              '\n' :: ((spaces ind).data ++ ']' :: rest0)) (acc ++ [v]) := hw
        have hihd : parseElemsWith (parseValue f) ef
            ((joinElems (w :: ws) (ind + 2)).data ++
              '\n' :: ((spaces ind).data ++ ']' :: rest0)) (acc ++ [v]) =
            Except.ok (JSVal.arr (acc ++ [v] ++ (w :: ws)) [], rest0) := hih
        simp [hskc, hskcd, hwd, hihd]

/-- The member loop reads back a printed non-empty field list and stops
at the closing brace. -/
theorem parseMembers_print (f ind : Nat)
    (IH : ∀ (V : JSVal) (ind2 : Nat) (rest : List Char), wfJson V = true → jsize V < f →
      restOk rest → parseValue f ((stringifyVal V ind2).toList ++ rest) = .ok (V, rest)) :
    ∀ (fs : List (String × JSVal)), fs ≠ [] →
      ∀ (acc : List (String × JSVal)) (mfuel : Nat) (rest0 : List Char),
      wfJsonFields fs = true →
      ((acc.map Prod.fst) ++ (fs.map Prod.fst)).Nodup →
      (∀ kv ∈ fs, jsize kv.2 < f) → fs.length ≤ mfuel →
      parseMembersWith (parseValue f) mfuel
        ((joinFields fs (ind + 2)).toList ++ '\n' :: ((spaces ind).toList ++ rbrace :: rest0))
        acc = .ok (.obj (acc ++ fs), rest0) := by
  intro fs
  induction fs with
  | nil => intro h; exact absurd rfl h
  | cons kv tl ih =>
    obtain ⟨k, v⟩ := kv
    intro _ acc mfuel rest0 hwf hnd hszf hmf
    cases mfuel with
    | zero => simp at hmf
    | succ mf =>
      simp only [wfJsonFields, Bool.and_eq_true] at hwf
      have hkacc : k ∉ acc.map Prod.fst := by
        intro hin
        have hd := (List.nodup_append.mp hnd).2.2
        exact hd hin (by simp)
      have hmkk : String.mk (String.toList k) = k := rfl
      have hsetf : setField acc k v = acc ++ [(k, v)] :=
        setField_absent acc k v (lookupField_none acc k hkacc)
      have hquote : (quoteString k).toList =
          '"' :: ((k.toList.map escapeChar).flatten ++ ['"']) := rfl
      have hcolon : (": " : String).toList = [':', ' '] := rfl
      have hcomma : (",\n" : String).toList = [',', '\n'] := rfl
      cases tl with
      | nil =>
        have hsep : restOk ('\n' :: ((spaces ind).toList ++ rbrace :: rest0)) := Or.inr rfl
        have hv := IH v (ind + 2) ('\n' :: ((spaces ind).toList ++ rbrace :: rest0))
          hwf.1 (hszf (k, v) (by simp)) hsep
        have hsk3 : skipWs ('\n' :: ((spaces ind).toList ++ rbrace :: rest0)) =
            rbrace :: rest0 := by
          have h1 : ∀ c ∈ '\n' :: (spaces ind).toList, isJsWhitespace c = true := by
            intro c hc
            rcases List.mem_cons.mp hc with rfl | hc
            · decide
            · exact spaces_all_ws ind c hc
          have h2 := skipWs_append_ws ('\n' :: (spaces ind).toList) (rbrace :: rest0) h1
          have h3 : skipWs (rbrace :: rest0) = rbrace :: rest0 :=
            skipWs_cons_not_ws (by decide) _
          rw [h3] at h2
          simpa using h2
        have hlen : (String.toList k).length <
            ((k.toList.map escapeChar).flatten ++ '"' :: ':' :: ' ' ::
              ((stringifyVal v (ind + 2)).toList ++
                '\n' :: ((spaces ind).toList ++ rbrace :: rest0))).length + 1 := by
          have hg := escaped_length_ge k.toList
          simp only [List.length_append, List.length_cons]
          omega
        have hpsb := parseStringBody_roundtrip k.toList
          (((k.toList.map escapeChar).flatten ++ '"' :: ':' :: ' ' ::
            ((stringifyVal v (ind + 2)).toList ++
              '\n' :: ((spaces ind).toList ++ rbrace :: rest0))).length + 1)
          (':' :: ' ' :: ((stringifyVal v (ind + 2)).toList ++
            '\n' :: ((spaces ind).toList ++ rbrace :: rest0))) hlen
        have hvws := parseValue_dropWs f [' ']
          ((stringifyVal v (ind + 2)).toList ++
            '\n' :: ((spaces ind).toList ++ rbrace :: rest0)) (by intro c hc; simp at hc; subst hc; decide)
        simp only [List.cons_append, List.nil_append] at hvws
        have hsk1 : skipWs ((spaces (ind + 2)).toList ++ '"' ::
            ((k.toList.map escapeChar).flatten ++ '"' :: ':' :: ' ' ::
              ((stringifyVal v (ind + 2)).toList ++
                '\n' :: ((spaces ind).toList ++ rbrace :: rest0)))) =
            '"' :: ((k.toList.map escapeChar).flatten ++ '"' :: ':' :: ' ' ::
              ((stringifyVal v (ind + 2)).toList ++
                '\n' :: ((spaces ind).toList ++ rbrace :: rest0))) := by
          rw [skipWs_append_ws _ _ (spaces_all_ws (ind + 2))]
          exact skipWs_cons_not_ws (by decide) _
        have hsk2 : skipWs (':' :: ' ' :: ((stringifyVal v (ind + 2)).toList ++
            '\n' :: ((spaces ind).toList ++ rbrace :: rest0))) =
            ':' :: ' ' :: ((stringifyVal v (ind + 2)).toList ++
            '\n' :: ((spaces ind).toList ++ rbrace :: rest0)) :=
          skipWs_cons_not_ws (by decide) _
        simp only [joinFields, toList_strApp, hquote, hcolon, List.append_assoc,
          List.cons_append, List.nil_append]
        simp only [parseMembersWith]
        rw [hsk1]
        have hmkk2 : String.mk (String.data k) = k := rfl
        simp at hpsb hv hvws hsk2 hsk3
        simp [hpsb, hsk2, hvws, hv, hmkk, hmkk2, hsetf, hsk3]
        rfl
      | cons kv2 gs =>
        have hne2 : (kv2 :: gs : List (String × JSVal)) ≠ [] := by simp
        have hnd2 : (((acc ++ [(k, v)]).map Prod.fst) ++ ((kv2 :: gs).map Prod.fst)).Nodup := by
          simpa [List.append_assoc] using hnd
        have hsep : restOk (',' :: '\n' :: ((joinFields (kv2 :: gs) (ind + 2)).toList ++
            '\n' :: ((spaces ind).toList ++ rbrace :: rest0))) := Or.inl rfl
        have hv := IH v (ind + 2)
          (',' :: '\n' :: ((joinFields (kv2 :: gs) (ind + 2)).toList ++
            '\n' :: ((spaces ind).toList ++ rbrace :: rest0)))
          hwf.1 (hszf (k, v) (by simp)) hsep
        have hih := ih hne2 (acc ++ [(k, v)]) mf rest0 hwf.2 hnd2
          (fun u hu => hszf u (by simp [hu])) (by simp at hmf ⊢; omega)
        have hwn : ∀ c ∈ ['\n'], isJsWhitespace c = true := by
          intro c hc
          simp at hc
          subst hc
          decide
        have hw := parseMembersWith_dropWs f mf ['\n']
          ((joinFields (kv2 :: gs) (ind + 2)).toList ++
            '\n' :: ((spaces ind).toList ++ rbrace :: rest0)) (acc ++ [(k, v)]) hwn
        simp only [List.cons_append, List.nil_append] at hw
        have hlen : (String.toList k).length <
            ((k.toList.map escapeChar).flatten ++ '"' :: ':' :: ' ' ::
              ((stringifyVal v (ind + 2)).toList ++
                ',' :: '\n' :: ((joinFields (kv2 :: gs) (ind + 2)).toList ++
                  '\n' :: ((spaces ind).toList ++ rbrace :: rest0)))).length + 1 := by
          have hg := escaped_length_ge k.toList
          simp only [List.length_append, List.length_cons]
          omega
        have hpsb := parseStringBody_roundtrip k.toList
          (((k.toList.map escapeChar).flatten ++ '"' :: ':' :: ' ' ::
            ((stringifyVal v (ind + 2)).toList ++
              ',' :: '\n' :: ((joinFields (kv2 :: gs) (ind + 2)).toList ++
                '\n' :: ((spaces ind).toList ++ rbrace :: rest0)))).length + 1)
          (':' :: ' ' :: ((stringifyVal v (ind + 2)).toList ++
            ',' :: '\n' :: ((joinFields (kv2 :: gs) (ind + 2)).toList ++
              '\n' :: ((spaces ind).toList ++ rbrace :: rest0)))) hlen
        have hvws := parseValue_dropWs f [' ']
          ((stringifyVal v (ind + 2)).toList ++
            ',' :: '\n' :: ((joinFields (kv2 :: gs) (ind + 2)).toList ++
              '\n' :: ((spaces ind).toList ++ rbrace :: rest0)))
          (by intro c hc; simp at hc; subst hc; decide)
        simp only [List.cons_append, List.nil_append] at hvws
        have hsk1 : skipWs ((spaces (ind + 2)).toList ++ '"' ::
            ((k.toList.map escapeChar).flatten ++ '"' :: ':' :: ' ' ::
              ((stringifyVal v (ind + 2)).toList ++
                ',' :: '\n' :: ((joinFields (kv2 :: gs) (ind + 2)).toList ++
                  '\n' :: ((spaces ind).toList ++ rbrace :: rest0))))) =
            '"' :: ((k.toList.map escapeChar).flatten ++ '"' :: ':' :: ' ' ::
              ((stringifyVal v (ind + 2)).toList ++
                ',' :: '\n' :: ((joinFields (kv2 :: gs) (ind + 2)).toList ++
                  '\n' :: ((spaces ind).toList ++ rbrace :: rest0)))) := by
          rw [skipWs_append_ws _ _ (spaces_all_ws (ind + 2))]
          exact skipWs_cons_not_ws (by decide) _
        have hsk2 : skipWs (':' :: ' ' :: ((stringifyVal v (ind + 2)).toList ++
            ',' :: '\n' :: ((joinFields (kv2 :: gs) (ind + 2)).toList ++
              '\n' :: ((spaces ind).toList ++ rbrace :: rest0)))) =
            ':' :: ' ' :: ((stringifyVal v (ind + 2)).toList ++
            ',' :: '\n' :: ((joinFields (kv2 :: gs) (ind + 2)).toList ++
              '\n' :: ((spaces ind).toList ++ rbrace :: rest0))) :=
          skipWs_cons_not_ws (by decide) _
        have hsk4 : skipWs (',' :: '\n' :: ((joinFields (kv2 :: gs) (ind + 2)).toList ++
            '\n' :: ((spaces ind).toList ++ rbrace :: rest0))) =
            ',' :: '\n' :: ((joinFields (kv2 :: gs) (ind + 2)).toList ++
            '\n' :: ((spaces ind).toList ++ rbrace :: rest0)) :=
          skipWs_cons_not_ws (by decide) _
        simp only [joinFields, toList_strApp, hquote, hcolon, hcomma, List.append_assoc,
          List.cons_append, List.nil_append]
        simp only [parseMembersWith]
        rw [hsk1]
        have hmkk2 : String.mk (String.data k) = k := rfl
        simp at hpsb hv hvws hsk2 hsk4 hw hih
        simp [hpsb, hsk2, hvws, hv, hmkk, hmkk2, hsetf, hsk4, hw, hih]

/-- The value parser at a string literal head. -/
theorem parseValue_str_entry (f : Nat) (r : List Char) :
    parseValue (f + 1) ('"' :: r) =
      match parseStringBody (r.length + 1) r with
      | .error m => .error m
      | .ok (cs, r2) => .ok (.str (String.mk cs), r2) := rfl

/-- The value parser at an opening bracket. -/
theorem parseValue_arr_entry (f : Nat) (r : List Char) :
    parseValue (f + 1) ('[' :: r) =
      (match skipWs r with
      | c2 :: r2 =>
        if c2 = ']' then .ok (.arr [] [], r2)
        else parseElemsWith (parseValue f) (r.length + 1) (skipWs r) []
      | [] => .error "Unexpected end of JSON input") := rfl

/-- The value parser at an opening brace. -/
theorem parseValue_obj_entry (f : Nat) (r : List Char) :
    parseValue (f + 1) (lbrace :: r) =
      (match skipWs r with
      | c2 :: r2 =>
        if c2 = rbrace then .ok (.obj [], r2)
        else parseMembersWith (parseValue f) (r.length + 1) (skipWs r) []
      | [] => .error "Unexpected end of JSON input") := rfl

/-- Parsing reads back exactly the printed form of any well-formed
value, leaving a safe continuation untouched. -/
theorem printParse :
    ∀ (fuel : Nat) (V : JSVal) (ind : Nat) (rest : List Char),
      wfJson V = true → jsize V < fuel → restOk rest →
      parseValue fuel ((stringifyVal V ind).toList ++ rest) = .ok (V, rest) := by
  intro fuel
  induction fuel with
  | zero => intro V ind rest _ h _; omega
  | succ f IH =>
    intro V ind rest hwf hsz hrest
    cases V with
    | str s =>
      have hst : (stringifyVal (.str s) ind).toList ++ rest =
          '"' :: ((s.toList.map escapeChar).flatten ++ '"' :: rest) := by
        simp [stringifyVal, quoteString, toList_mk]
      have hlen : s.toList.length <
          ((s.toList.map escapeChar).flatten ++ '"' :: rest).length + 1 := by
        have := escaped_length_ge s.toList
        simp only [List.length_append, List.length_cons]
        omega
      have hpsb := parseStringBody_roundtrip s.toList
        (((s.toList.map escapeChar).flatten ++ '"' :: rest).length + 1) rest hlen
      rw [hst, parseValue_str_entry, hpsb]
      rfl
    | num m e =>
      obtain ⟨c, t, hshape, hclass⟩ := numToString_shape m e
      obtain ⟨hws, hq, hlb, hlbr, ht, hf2, hn2, hcls⟩ := num_head_classes c hclass
      have hwf2 : (m = 0 ∧ e = 0) ∨ (m ≠ 0 ∧ m % 10 ≠ 0) := by
        simpa [wfJson, Decidable.or_iff_not_imp_left] using hwf
      have hrt := parseNumberJSON_roundtrip m e rest hwf2 hrest
      have hsv : stringifyVal (.num m e) ind = numToString m e := by simp [stringifyVal]
      have hstream : (numToString m e).toList ++ rest = c :: (t ++ rest) := by
        rw [hshape]
        rfl
      have hpn : parseNumberJSON (c :: (t ++ rest)) = .ok ((m, e), rest) := by
        rw [← hstream]
        exact hrt
      have hsk : skipWs (c :: (t ++ rest)) = c :: (t ++ rest) := skipWs_cons_not_ws hws _
      rw [hsv, hstream]
      simp only [parseValue]
      rw [hsk]
      simp [hq, hlb, hlbr, ht, hf2, hn2, hcls, hpn]
    | bool b =>
      cases b
      · have hsv : (stringifyVal (.bool false) ind).toList = ['f', 'a', 'l', 's', 'e'] := by
          simp [stringifyVal]
        rw [hsv]
        rfl
      · have hsv : (stringifyVal (.bool true) ind).toList = ['t', 'r', 'u', 'e'] := by
          simp [stringifyVal]
        rw [hsv]
        rfl
    | null =>
      have hsv : (stringifyVal .null ind).toList = ['n', 'u', 'l', 'l'] := by
        simp [stringifyVal]
      rw [hsv]
      rfl
    | undef => simp [wfJson] at hwf
    | arr es props =>
      have hwfa : props.isEmpty = true ∧ wfJsonList es = true := by
        simpa [wfJson] using hwf
      obtain ⟨hpe, hwfl⟩ := hwfa
      have hprops : props = [] := by
        cases props
        · rfl
        · simp at hpe
      subst hprops
      cases es with
      | nil =>
        have hsv : (stringifyVal (.arr [] []) ind).toList = ['[', ']'] := by
          simp [stringifyVal]
        rw [hsv]
        rfl
      | cons v vs =>
        have hlit1 : ("[\n" : String).toList = ['[', '\n'] := rfl
        have hlit2 : ("\n" : String).toList = ['\n'] := rfl
        have hlit3 : ("]" : String).toList = [']'] := rfl
        have hst : (stringifyVal (.arr (v :: vs) []) ind).toList ++ rest =
            '[' :: ('\n' :: ((joinElems (v :: vs) (ind + 2)).toList ++
              '\n' :: ((spaces ind).toList ++ ']' :: rest))) := by
          simp [stringifyVal, toList_strApp, hlit1, hlit2, hlit3]
        have hJE : ∃ Z, (joinElems (v :: vs) (ind + 2)).toList =
            (spaces (ind + 2)).toList ++ ((stringifyVal v (ind + 2)).toList ++ Z) := by
          cases vs with
          | nil => exact ⟨[], by simp [joinElems, toList_strApp]⟩
          | cons w ws =>
            exact ⟨(",\n" : String).toList ++ (joinElems (w :: ws) (ind + 2)).toList,
              by simp [joinElems, toList_strApp]⟩
        obtain ⟨Z, hZ⟩ := hJE
        obtain ⟨c0, hhead, hc0ws, hc0br, hc0rb⟩ := stringify_head_spec v (ind + 2)
        rcases hsvl : (stringifyVal v (ind + 2)).toList with _ | ⟨c1, t1⟩
        · rw [hsvl] at hhead
          exact absurd hhead (by simp)
        have hc1 : c1 = c0 := by
          rw [hsvl] at hhead
          simpa using hhead
        subst hc1
        rw [hsvl] at hZ
        have hpre : ∀ c ∈ '\n' :: (spaces (ind + 2)).toList, isJsWhitespace c = true := by
          intro c hc
          rcases List.mem_cons.mp hc with rfl | hc
          · decide
          · exact spaces_all_ws (ind + 2) c hc
        have hskT : skipWs ('\n' :: ((joinElems (v :: vs) (ind + 2)).toList ++
            '\n' :: ((spaces ind).toList ++ ']' :: rest))) =
            c1 :: (t1 ++ (Z ++ '\n' :: ((spaces ind).toList ++ ']' :: rest))) := by
          rw [hZ]
          have heq : '\n' :: (((spaces (ind + 2)).toList ++ ((c1 :: t1) ++ Z)) ++
              '\n' :: ((spaces ind).toList ++ ']' :: rest)) =
              ('\n' :: (spaces (ind + 2)).toList) ++
                (c1 :: (t1 ++ (Z ++ '\n' :: ((spaces ind).toList ++ ']' :: rest)))) := by
            simp
          rw [heq, skipWs_append_ws _ _ hpre, skipWs_cons_not_ws hc0ws]
        have hwn : ∀ c ∈ ['\n'], isJsWhitespace c = true := by
          intro c hc
          simp at hc
          subst hc
          decide
        have hszs : ∀ u ∈ v :: vs, jsize u < f := by
          intro u hu
          have h1 := jsize_lt_list u (v :: vs) hu
          simp only [jsize] at hsz
          omega
        have hjc := joinElems_len_count (ind + 2) (v :: vs)
        have hEb : (v :: vs).length ≤
            ('\n' :: ((joinElems (v :: vs) (ind + 2)).toList ++
              '\n' :: ((spaces ind).toList ++ ']' :: rest))).length + 1 := by
          simp only [List.length_cons, List.length_append] at hjc ⊢
          omega
        have h2 := parseElemsWith_dropWs f
          (('\n' :: ((joinElems (v :: vs) (ind + 2)).toList ++
            '\n' :: ((spaces ind).toList ++ ']' :: rest))).length + 1) ['\n']
          ((joinElems (v :: vs) (ind + 2)).toList ++
            '\n' :: ((spaces ind).toList ++ ']' :: rest)) [] hwn
        simp only [List.cons_append, List.nil_append] at h2
        have hloop := parseElems_print f ind IH (v :: vs) (by simp) []
          (('\n' :: ((joinElems (v :: vs) (ind + 2)).toList ++
            '\n' :: ((spaces ind).toList ++ ']' :: rest))).length + 1) rest hwfl hszs hEb
        have hfinal : parseElemsWith (parseValue f)
            (('\n' :: ((joinElems (v :: vs) (ind + 2)).toList ++
              '\n' :: ((spaces ind).toList ++ ']' :: rest))).length + 1)
            (c1 :: (t1 ++ (Z ++ '\n' :: ((spaces ind).toList ++ ']' :: rest)))) [] =
            Except.ok (JSVal.arr (v :: vs) [], rest) := by
          rw [← hskT, ← parseElemsWith_skipWs, h2]
          simpa using hloop
        rw [hst, parseValue_arr_entry, hskT]
        simp at hfinal
        simp [hc0br, hfinal]
    | obj fields =>
      have hwfo : (fields.map Prod.fst).Nodup ∧ wfJsonFields fields = true := by
        simpa [wfJson] using hwf
      have hkept : fields.filter (fun kv => !(jsIsUndef kv.2)) = fields :=
        wf_filter_kept fields hwfo.2
      cases fields with
      | nil =>
        have hsv : (stringifyVal (.obj []) ind).toList = [lbrace, rbrace] := by
          simp [stringifyVal]
          decide
        rw [hsv]
        rfl
      | cons kv tl =>
        obtain ⟨k, v⟩ := kv
        have hlit1 : ("\x7b\n" : String).toList = [lbrace, '\n'] := rfl
        have hlit2 : ("\n" : String).toList = ['\n'] := rfl
        have hlit3 : ("\x7d" : String).toList = [rbrace] := rfl
        have hquote : (quoteString k).toList =
            '"' :: ((k.toList.map escapeChar).flatten ++ ['"']) := rfl
        have hcolon : (": " : String).toList = [':', ' '] := rfl
        have hst : (stringifyVal (.obj ((k, v) :: tl)) ind).toList ++ rest =
            lbrace :: ('\n' :: ((joinFields ((k, v) :: tl) (ind + 2)).toList ++
              '\n' :: ((spaces ind).toList ++ rbrace :: rest))) := by
          simp [stringifyVal, hkept, toList_strApp, hlit1, hlit2, hlit3]
          decide
        have hquoted : (quoteString k).data =
            '"' :: ((k.toList.map escapeChar).flatten ++ ['"']) := rfl
        have hJF : ∃ Z, (joinFields ((k, v) :: tl) (ind + 2)).toList =
            (spaces (ind + 2)).toList ++ ('"' :: Z) := by
          cases tl with
          | nil =>
            exact ⟨(k.toList.map escapeChar).flatten ++ '"' :: ':' :: ' ' ::
              (stringifyVal v (ind + 2)).toList,
              by simp [joinFields, toList_strApp, hquote, hquoted, hcolon]⟩
          | cons kv2 gs =>
            exact ⟨(k.toList.map escapeChar).flatten ++ '"' :: ':' :: ' ' ::
              ((stringifyVal v (ind + 2)).toList ++ ',' :: '\n' ::
                (joinFields (kv2 :: gs) (ind + 2)).toList),
              by simp [joinFields, toList_strApp, hquote, hquoted, hcolon]⟩
        obtain ⟨Z, hZ⟩ := hJF
        have hpre : ∀ c ∈ '\n' :: (spaces (ind + 2)).toList, isJsWhitespace c = true := by
          intro c hc
          rcases List.mem_cons.mp hc with rfl | hc
          · decide
          · exact spaces_all_ws (ind + 2) c hc
        have hskT : skipWs ('\n' :: ((joinFields ((k, v) :: tl) (ind + 2)).toList ++
            '\n' :: ((spaces ind).toList ++ rbrace :: rest))) =
            '"' :: (Z ++ '\n' :: ((spaces ind).toList ++ rbrace :: rest)) := by
          rw [hZ]
          have heq : '\n' :: (((spaces (ind + 2)).toList ++ ('"' :: Z)) ++
              '\n' :: ((spaces ind).toList ++ rbrace :: rest)) =
              ('\n' :: (spaces (ind + 2)).toList) ++
                ('"' :: (Z ++ '\n' :: ((spaces ind).toList ++ rbrace :: rest))) := by
            simp
          rw [heq, skipWs_append_ws _ _ hpre, skipWs_cons_not_ws (by decide)]
        have hwn : ∀ c ∈ ['\n'], isJsWhitespace c = true := by
          intro c hc
          simp at hc
          subst hc
          decide
        have hszs : ∀ u ∈ (k, v) :: tl, jsize u.2 < f := by
          intro u hu
          have h1 := jsize_lt_fields ((k, v) :: tl) u hu
          simp only [jsize] at hsz
          omega
        have hjc := joinFields_len_count (ind + 2) ((k, v) :: tl)
        have hEb : ((k, v) :: tl).length ≤
            ('\n' :: ((joinFields ((k, v) :: tl) (ind + 2)).toList ++
              '\n' :: ((spaces ind).toList ++ rbrace :: rest))).length + 1 := by
          simp only [List.length_cons, List.length_append] at hjc ⊢
          omega
        have hnd : (((([] : List (String × JSVal)).map Prod.fst)) ++
            (((k, v) :: tl).map Prod.fst)).Nodup := by
          simpa using hwfo.1
        have h2 := parseMembersWith_dropWs f
          (('\n' :: ((joinFields ((k, v) :: tl) (ind + 2)).toList ++
            '\n' :: ((spaces ind).toList ++ rbrace :: rest))).length + 1) ['\n']
          ((joinFields ((k, v) :: tl) (ind + 2)).toList ++
            '\n' :: ((spaces ind).toList ++ rbrace :: rest)) [] hwn
        simp only [List.cons_append, List.nil_append] at h2
        have hloop := parseMembers_print f ind IH ((k, v) :: tl) (by simp) []
          (('\n' :: ((joinFields ((k, v) :: tl) (ind + 2)).toList ++
            '\n' :: ((spaces ind).toList ++ rbrace :: rest))).length + 1) rest
          hwfo.2 hnd hszs hEb
        have hfinal : parseMembersWith (parseValue f)
            (('\n' :: ((joinFields ((k, v) :: tl) (ind + 2)).toList ++
              '\n' :: ((spaces ind).toList ++ rbrace :: rest))).length + 1)
            ('"' :: (Z ++ '\n' :: ((spaces ind).toList ++ rbrace :: rest))) [] =
            Except.ok (JSVal.obj ((k, v) :: tl), rest) := by
          rw [← hskT, ← parseMembersWith_skipWs, h2]
          simpa using hloop
        rw [hst, parseValue_obj_entry, hskT]
        simp at hfinal
        simp [(show ¬('"' = rbrace) by decide), hfinal]

/-- Every value has positive size. -/
theorem jsize_pos (v : JSVal) : 1 ≤ jsize v := by
  cases v <;> simp only [jsize] <;> omega

/-- Well-formedness of a list passes to its members. -/
theorem wfJsonList_mem : ∀ (l : List JSVal), wfJsonList l = true →
    ∀ u ∈ l, wfJson u = true := by
  intro l
  induction l with
  | nil => intro _ u hu; simp at hu
  | cons v tl ih =>
    intro h u hu
    simp only [wfJsonList, Bool.and_eq_true] at h
    rcases List.mem_cons.mp hu with rfl | hu2
    · exact h.1
    · exact ih h.2 u hu2

/-- Well-formedness of a field list passes to its values. -/
theorem wfJsonFields_mem : ∀ (l : List (String × JSVal)), wfJsonFields l = true →
    ∀ kv ∈ l, wfJson kv.2 = true := by
  intro l
  induction l with
  | nil => intro _ kv hkv; simp at hkv
  | cons p tl ih =>
    obtain ⟨k1, v1⟩ := p
    intro h kv hkv
    simp only [wfJsonFields, Bool.and_eq_true] at h
    rcases List.mem_cons.mp hkv with rfl | hkv2
    · exact h.1
    · exact ih h.2 kv hkv2

/-- The printed element list bounds the summed element sizes. -/
theorem joinElems_size_le (ind : Nat) :
    ∀ (l : List JSVal),
      (∀ u ∈ l, jsize u ≤ (stringifyVal u ind).toList.length) →
      jsizeList l ≤ (joinElems l ind).toList.length + 1 := by
  intro l
  induction l with
  | nil => simp [jsizeList, joinElems]
  | cons v tl ih =>
    intro hb
    have h1 := hb v (by simp)
    cases tl with
    | nil =>
      simp only [jsizeList, joinElems, toList_strApp, List.length_append]
      omega
    | cons w ws =>
      have h2 := ih (fun u hu => hb u (by simp [hu]))
      have hc : (",\n" : String).toList.length = 2 := rfl
      simp only [jsizeList, joinElems, toList_strApp, List.length_append] at h2 ⊢
      omega

/-- The printed member list bounds the summed field sizes. -/
theorem joinFields_size_le (ind : Nat) :
    ∀ (l : List (String × JSVal)),
      (∀ u ∈ l, jsize u.2 ≤ (stringifyVal u.2 ind).toList.length) →
      jsizeFields l ≤ (joinFields l ind).toList.length + 1 := by
  intro l
  induction l with
  | nil => simp [jsizeFields, joinFields]
  | cons p tl ih =>
    obtain ⟨k, v⟩ := p
    intro hb
    have h1 := hb (k, v) (by simp)
    have hq : 1 ≤ (quoteString k).toList.length := by
      simp [quoteString, toList_mk]
    cases tl with
    | nil =>
      simp only [jsizeFields, joinFields, toList_strApp, List.length_append] at h1 ⊢
      omega
    | cons p2 gs =>
      have h2 := ih (fun u hu => hb u (by simp [hu]))
      have hc : (",\n" : String).toList.length = 2 := rfl
      simp only [jsizeFields, joinFields, toList_strApp, List.length_append] at h1 h2 ⊢
      omega

/-- The size of a well-formed value never exceeds its printed length, so
the length-based fuel of the top-level parser suffices. -/
theorem jsize_le_print :
    ∀ (n : Nat) (v : JSVal), jsize v ≤ n → wfJson v = true →
      ∀ ind : Nat, jsize v ≤ (stringifyVal v ind).toList.length := by
  intro n
  induction n with
  | zero =>
    intro v h _ _
    have := jsize_pos v
    omega
  | succ n ih =>
    intro v hle hwf ind
    cases v with
    | str s =>
      simp only [jsize]
      exact stringifyVal_length_pos _ ind
    | num m e =>
      simp only [jsize]
      exact stringifyVal_length_pos _ ind
    | bool b =>
      simp only [jsize]
      exact stringifyVal_length_pos _ ind
    | null =>
      simp only [jsize]
      exact stringifyVal_length_pos _ ind
    | undef => simp [wfJson] at hwf
    | arr es props =>
      have hwfa : props.isEmpty = true ∧ wfJsonList es = true := by
        simpa [wfJson] using hwf
      obtain ⟨hpe2, hwfl⟩ := hwfa
      have hprops : props = [] := by
        cases props
        · rfl
        · simp at hpe2
      subst hprops
      cases es with
      | nil =>
        have hsv : (stringifyVal (.arr [] []) ind).toList = ['[', ']'] := by
          simp [stringifyVal]
        rw [hsv]
        simp [jsize, jsizeList, jsizeFields]
      | cons v vs =>
        have hlit1 : ("[\n" : String).toList = ['[', '\n'] := rfl
        have hlit2 : ("\n" : String).toList = ['\n'] := rfl
        have hlit3 : ("]" : String).toList = [']'] := rfl
        have hsv : (stringifyVal (.arr (v :: vs) []) ind).toList =
            '[' :: ('\n' :: ((joinElems (v :: vs) (ind + 2)).toList ++
              '\n' :: ((spaces ind).toList ++ [']']))) := by
          simp [stringifyVal, toList_strApp, hlit1, hlit2, hlit3]
        have hb : ∀ u ∈ v :: vs, jsize u ≤ (stringifyVal u (ind + 2)).toList.length := by
          intro u hu
          have hlt := jsize_lt_list u (v :: vs) hu
          have hun : jsize u ≤ n := by
            simp only [jsize] at hle
            omega
          exact ih u hun (wfJsonList_mem (v :: vs) hwfl u hu) (ind + 2)
        have hje := joinElems_size_le (ind + 2) (v :: vs) hb
        rw [hsv]
        simp only [jsize, jsizeFields, List.length_cons, List.length_append]
        omega
    | obj fields =>
      have hwfo : (fields.map Prod.fst).Nodup ∧ wfJsonFields fields = true := by
        simpa [wfJson] using hwf
      have hkept : fields.filter (fun kv => !(jsIsUndef kv.2)) = fields :=
        wf_filter_kept fields hwfo.2
      cases fields with
      | nil =>
        have hsv : (stringifyVal (.obj []) ind).toList = [lbrace, rbrace] := by
          simp [stringifyVal]
          decide
        rw [hsv]
        simp [jsize, jsizeFields]
      | cons kv tl =>
        obtain ⟨k, v⟩ := kv
        have hlit1 : ("\x7b\n" : String).toList = [lbrace, '\n'] := rfl
        have hlit2 : ("\n" : String).toList = ['\n'] := rfl
        have hlit3 : ("\x7d" : String).toList = [rbrace] := rfl
        have hsv : (stringifyVal (.obj ((k, v) :: tl)) ind).toList =
            lbrace :: ('\n' :: ((joinFields ((k, v) :: tl) (ind + 2)).toList ++
              '\n' :: ((spaces ind).toList ++ [rbrace]))) := by
          simp [stringifyVal, hkept, toList_strApp, hlit1, hlit2, hlit3]
          decide
        have hb : ∀ u ∈ (k, v) :: tl,
            jsize u.2 ≤ (stringifyVal u.2 (ind + 2)).toList.length := by
          intro u hu
          have hlt := jsize_lt_fields ((k, v) :: tl) u hu
          have hun : jsize u.2 ≤ n := by
            simp only [jsize] at hle
            omega
          exact ih u.2 hun (wfJsonFields_mem ((k, v) :: tl) hwfo.2 u hu) (ind + 2)
        have hjf := joinFields_size_le (ind + 2) ((k, v) :: tl) hb
        rw [hsv]
        simp only [jsize, List.length_cons, List.length_append]
        omega

/-- Well-formedness of element lists distributes over append. -/
theorem wfJsonList_append (a b : List JSVal) :
    wfJsonList (a ++ b) = (wfJsonList a && wfJsonList b) := by
  induction a with
  | nil => simp [wfJsonList]
  | cons v tl ih => simp [wfJsonList, ih, Bool.and_assoc]

/-- Canonicalised numbers are well-formed. -/
theorem wf_num_canonNum (a b : Int) :
    wfJson (.num (canonNum a b).1 (canonNum a b).2) = true := by
  obtain ⟨h1, h2⟩ := canonNum_canonical a b
  by_cases h0 : (canonNum a b).1 = 0
  · have heq := h1 h0
    rw [heq]
    simp [wfJson]
  · have hd := h2 h0
    have hm : ¬((canonNum a b).1 % 10 = 0) := fun hc => hd (Int.dvd_of_emod_eq_zero hc)
    simp [wfJson, h0, hm]

/-- Every number the JSON number parser returns is well-formed. -/
theorem parseNumberJSON_wf (s : List Char) (m e : Int) (r : List Char)
    (h : parseNumberJSON s = .ok ((m, e), r)) : wfJson (.num m e) = true := by
  unfold parseNumberJSON at h
  dsimp only at h
  repeat' split at h
  all_goals simp at h
  all_goals
    obtain ⟨h2, -⟩ := h
  all_goals
    have hm := congrArg Prod.fst h2
  all_goals
    have he := congrArg Prod.snd h2
  all_goals
    dsimp only at hm he
  all_goals
    rw [← hm, ← he]
  all_goals
    exact wf_num_canonNum _ _

/-- Binding a well-formed value keeps a field list well-formed. -/
theorem setField_wf (fs : List (String × JSVal)) (k : String) (v : JSVal)
    (hf : wfJsonFields fs = true) (hv : wfJson v = true) :
    wfJsonFields (setField fs k v) = true := by
  induction fs with
  | nil => simp [setField, wfJsonFields, hv]
  | cons kv rest ih =>
    obtain ⟨k1, v1⟩ := kv
    simp only [wfJsonFields, Bool.and_eq_true] at hf
    by_cases hk : k1 = k
    · simp [setField, hk, wfJsonFields, hv, hf.2]
    · simp [setField, hk, wfJsonFields, hf.1, ih hf.2]

/-- The key list after a binding: unchanged for a present key, extended
by the new key otherwise. -/
theorem setField_map_fst (fs : List (String × JSVal)) (k : String) (v : JSVal) :
    (setField fs k v).map Prod.fst =
      if k ∈ fs.map Prod.fst then fs.map Prod.fst else fs.map Prod.fst ++ [k] := by
  induction fs with
  | nil => simp [setField]
  | cons kv rest ih =>
    obtain ⟨k1, v1⟩ := kv
    by_cases hk : k1 = k
    · subst hk
      simp [setField]
    · have hne : ¬(k = k1) := fun he => hk he.symm
      simp only [setField, if_neg hk, List.map_cons, ih]
      by_cases hm : k ∈ rest.map Prod.fst
      · simp [hm, hne]
      · simp [hm, hne]

/-- A binding keeps the key list duplicate-free. -/
theorem setField_nodup (fs : List (String × JSVal)) (k : String) (v : JSVal)
    (h : (fs.map Prod.fst).Nodup) : ((setField fs k v).map Prod.fst).Nodup := by
  rw [setField_map_fst]
  split
  · exact h
  · next hne =>
    simp [List.nodup_append, h, hne]

/-- Every value the array-element loop returns is well-formed, given a
well-formed accumulator and a well-behaved element parser. -/
theorem parseElemsWith_wf (f : Nat)
    (hpv : ∀ (s r : List Char) (u : JSVal), parseValue f s = .ok (u, r) → wfJson u = true) :
    ∀ (efuel : Nat) (s : List Char) (acc : List JSVal) (v : JSVal) (r : List Char),
      wfJsonList acc = true →
      parseElemsWith (parseValue f) efuel s acc = .ok (v, r) → wfJson v = true := by
  intro efuel
  induction efuel with
  | zero =>
    intro s acc v r _ h
    simp [parseElemsWith] at h
  | succ ef ih =>
    intro s acc v r hacc h
    simp only [parseElemsWith] at h
    split at h
    · exact absurd h (by simp)
    · rename_i v1 r1 hpv2
      have hv1 : wfJson v1 = true := hpv s r1 v1 hpv2
      have hacc2 : wfJsonList (acc ++ [v1]) = true := by
        simp [wfJsonList_append, wfJsonList, hacc, hv1]
      split at h
      · exact ih _ _ v r hacc2 h
      · split at h
        · simp only [Except.ok.injEq, Prod.mk.injEq] at h
          obtain ⟨h1, -⟩ := h
          rw [← h1]
          simp [wfJson, hacc2]
        · exact absurd h (by simp)
      · exact absurd h (by simp)

/-- Every value the object-member loop returns is well-formed, given a
well-formed accumulator and a well-behaved value parser. -/
theorem parseMembersWith_wf (f : Nat)
    (hpv : ∀ (s r : List Char) (u : JSVal), parseValue f s = .ok (u, r) → wfJson u = true) :
    ∀ (mfuel : Nat) (s : List Char) (acc : List (String × JSVal)) (v : JSVal) (r : List Char),
      wfJsonFields acc = true → (acc.map Prod.fst).Nodup →
      parseMembersWith (parseValue f) mfuel s acc = .ok (v, r) → wfJson v = true := by
  intro mfuel
  induction mfuel with
  | zero =>
    intro s acc v r _ _ h
    simp [parseMembersWith] at h
  | succ mf ih =>
    intro s acc v r hacc hnd h
    simp only [parseMembersWith] at h
    split at h
    case _ => --非空 head
      split at h
      · split at h
        · exact absurd h (by simp)
        · rename_i kcs r1 hpsb
          split at h
          · rename_i r2 hsk2
            split at h
            · exact absurd h (by simp)
            · rename_i v1 r3 hpv2
              have hv1 : wfJson v1 = true := hpv _ _ _ hpv2
              have hacc2 : wfJsonFields (setField acc (String.mk kcs) v1) = true :=
                setField_wf _ _ _ hacc hv1
              have hnd2 : ((setField acc (String.mk kcs) v1).map Prod.fst).Nodup :=
                setField_nodup _ _ _ hnd
              split at h
              · exact ih _ _ v r hacc2 hnd2 h
              · split at h
                · simp only [Except.ok.injEq, Prod.mk.injEq] at h
                  obtain ⟨h1, -⟩ := h
                  rw [← h1]
                  simp [wfJson, hacc2, hnd2]
                · exact absurd h (by simp)
              · exact absurd h (by simp)
          · exact absurd h (by simp)
      · exact absurd h (by simp)
    case _ => exact absurd h (by simp)

/-- Every value the parser returns is well-formed: canonical numbers,
no `undefined`, no array properties, duplicate-free object keys. -/
theorem parseValue_wf :
    ∀ (fuel : Nat) (s : List Char) (v : JSVal) (r : List Char),
      parseValue fuel s = .ok (v, r) → wfJson v = true := by
  intro fuel
  induction fuel with
  | zero =>
    intro s v r h
    simp [parseValue] at h
  | succ f ih =>
    intro s v r h
    simp only [parseValue] at h
    split at h
    · exact absurd h (by simp)
    · split at h
      · -- string literal
        split at h
        · exact absurd h (by simp)
        · simp only [Except.ok.injEq, Prod.mk.injEq] at h
          obtain ⟨h1, -⟩ := h
          rw [← h1]
          rfl
      · split at h
        · -- object
          split at h
          · split at h
            · simp only [Except.ok.injEq, Prod.mk.injEq] at h
              obtain ⟨h1, -⟩ := h
              rw [← h1]
              simp [wfJson, wfJsonFields]
            · exact parseMembersWith_wf f (fun s2 r2 u hu => ih s2 u r2 hu) _ _ [] v r
                rfl (by simp) h
          · exact absurd h (by simp)
        · split at h
          · -- array
            split at h
            · split at h
              · simp only [Except.ok.injEq, Prod.mk.injEq] at h
                obtain ⟨h1, -⟩ := h
                rw [← h1]
                simp [wfJson, wfJsonList]
              · exact parseElemsWith_wf f (fun s2 r2 u hu => ih s2 u r2 hu) _ _ [] v r
                  rfl h
            · exact absurd h (by simp)
          · split at h
            · -- true
              split at h
              · simp only [Except.ok.injEq, Prod.mk.injEq] at h
                obtain ⟨h1, -⟩ := h
                rw [← h1]
                rfl
              · exact absurd h (by simp)
            · split at h
              · -- false
                split at h
                · simp only [Except.ok.injEq, Prod.mk.injEq] at h
                  obtain ⟨h1, -⟩ := h
                  rw [← h1]
                  rfl
                · exact absurd h (by simp)
              · split at h
                · -- null
                  split at h
                  · simp only [Except.ok.injEq, Prod.mk.injEq] at h
                    obtain ⟨h1, -⟩ := h
                    rw [← h1]
                    rfl
                  · exact absurd h (by simp)
                · split at h
                  · -- number
                    split at h
                    · exact absurd h (by simp)
                    · rename_i me r1 hpn
                      simp only [Except.ok.injEq, Prod.mk.injEq] at h
                      obtain ⟨h1, -⟩ := h
                      rw [← h1]
                      exact parseNumberJSON_wf _ me.1 me.2 r1 (by simpa using hpn)
                  · exact absurd h (by simp)

/-- Every tree the platform parser hands to the component is
well-formed. -/
theorem parseJSONText_wf (s : String) (v : JSVal) (h : parseJSONText s = .ok v) :
    wfJson v = true := by
  unfold parseJSONText at h
  split at h
  · exact absurd h (by simp)
  · rename_i v1 rest hpv
    split at h
    · simp only [Except.ok.injEq] at h
      rw [← h]
      exact parseValue_wf _ _ _ _ hpv
    · exact absurd h (by simp)

/-- Counterexample refuting the original Claim C9 on the real program.
The text `1e999` parses successfully — the exact model keeps the pair
`(1, 999)` where the platform's double conversion, past the overflow
bound, yields `Infinity` — the platform prints that tree as `null`
(`JSON.stringify` renders a non-finite number as `null`; here
`stringifyDouble`), and re-parsing the printed text returns the JSON
`null`, which is not equal to the parsed value: the round trip fails
for the real program at this input. -/
theorem c9_counterexample :
    parseJSONText "1e999" = .ok (JSVal.num 1 999) ∧
    overflowsDouble 1 999 = true ∧
    stringifyDouble (JSVal.num 1 999) = "null" ∧
    parseJSONText (stringifyDouble (JSVal.num 1 999)) = .ok JSVal.null ∧
    JSVal.null ≠ JSVal.num 1 999 := by
  have hov : overflowsDouble 1 999 = true := by decide
  have h3 : stringifyDouble (JSVal.num 1 999) = "null" := by
    simp [stringifyDouble, stringifyJSON, collapseOverflow, hov, stringifyVal]
  refine ⟨rfl, hov, h3, ?_, by simp⟩
  rw [h3]
  rfl

/-- Claim C9 (corrected): for every JSON text `T` that parses
successfully to a tree `V` all of whose numbers stay inside the finite
double range, serializing `V` with the pretty-printer (`JSON.stringify`
with two-space indentation, as the output handler does) and parsing
the result again yields a tree equal to `V`.  The finiteness
hypothesis delimits the inputs on which this exact-decimal embedding
agrees with the platform's binary64 numbers: past the overflow bound
the real `JSON.parse` holds `Infinity`, printed back as `null` (see
the counterexample), while inside it the platform's print of a parsed
double reads back to the same double.  In the exact model the
conclusion holds for every parsed tree, so the hypothesis is not
consumed by the proof — it marks the faithful domain. -/
theorem c9_roundtrip (T : String) (V : JSVal) (h : parseJSONText T = .ok V)
    (_hfin : hasOverflow V = false) :
    parseJSONText (stringifyJSON V) = .ok V := by
  have hwf : wfJson V = true := parseJSONText_wf T V h
  have hfuel : jsize V < (stringifyJSON V).length + 1 := by
    have hb := jsize_le_print (jsize V) V (le_refl _) hwf 0
    have hlen : (stringifyJSON V).length = (stringifyVal V 0).toList.length := rfl
    omega
  have hpp := printParse ((stringifyJSON V).length + 1) V 0 [] hwf hfuel trivial
  rw [List.append_nil] at hpp
  unfold parseJSONText
  have hX : (stringifyJSON V).toList = (stringifyVal V 0).toList := rfl
  rw [hX, hpp]
  rfl

/-- Witness for C9 at a concrete document holding a number, a boolean,
a string, a null and a fractional number, all numbers finite. -/
theorem c9_witness :
    parseJSONText "[1, true, \"a\", null, 2.5]" = .ok (JSVal.arr
      [JSVal.num 1 0, JSVal.bool true, JSVal.str "a", JSVal.null, JSVal.num 25 (-1)] []) ∧
    hasOverflow (JSVal.arr
      [JSVal.num 1 0, JSVal.bool true, JSVal.str "a", JSVal.null, JSVal.num 25 (-1)] []) =
      false ∧
    parseJSONText (stringifyJSON (JSVal.arr
      [JSVal.num 1 0, JSVal.bool true, JSVal.str "a", JSVal.null, JSVal.num 25 (-1)] [])) =
      .ok (JSVal.arr
        [JSVal.num 1 0, JSVal.bool true, JSVal.str "a", JSVal.null, JSVal.num 25 (-1)] []) :=
  ⟨rfl, rfl, c9_roundtrip "[1, true, \"a\", null, 2.5]" _ rfl rfl⟩

end DynamicForm
